import Mathlib

/-!
Verification of the node-red-function-sync repository.

The repository synchronizes script bodies between a JSON workflow document
(`flows.json`) and standalone `.js` files carrying an identity-metadata
block.  This file gives a shallow embedding of the relevant source
functions (`src/utils.ts`, `src/sync.ts`, `src/extract.ts`,
`src/migrate.ts`) over `List Char` strings, and proves or refutes the
frozen claims about them.

Strings are modelled as `List Char`.  JavaScript regexes used by the code
are simple enough to be modelled by direct scanning functions whose
semantics (leftmost match, greedy/lazy pieces) are derived in comments at
each definition.  `JSON.parse` (a platform builtin, not part of the
repository) is modelled by an executable JSON parser; JavaScript numbers
are kept as their literal tokens, which is exact for every input the
claims exercise.
-/

namespace NRSync

/-- Strings as lists of characters. -/
abbrev Str := List Char

/-- Coerce a Lean string literal to the model. -/
def str (s : String) : Str := s.data

/-- JavaScript whitespace (the `\s` regex class and `String.prototype.trim`):
ASCII whitespace, NBSP, BOM, and the Unicode space separators and line
terminators. -/
def isWSChar (c : Char) : Bool :=
  c = ' ' || c = '\t' || c = '\n' || c = '\r' || c = '\x0b' || c = '\x0c' ||
  c = (Char.ofNat 0xa0) || c = (Char.ofNat 0xfeff) || c = (Char.ofNat 0x1680) ||
  (0x2000 ≤ c.toNat && c.toNat ≤ 0x200a) ||
  c = (Char.ofNat 0x2028) || c = (Char.ofNat 0x2029) || c = (Char.ofNat 0x202f) || c = (Char.ofNat 0x205f) || c = (Char.ofNat 0x3000)

/-- Characters matched by the regex `.` (dot): everything except line
terminators. -/
def dotChar (c : Char) : Bool :=
  !(c = '\n' || c = '\r' || c = (Char.ofNat 0x2028) || c = (Char.ofNat 0x2029))

/-- The regex `\w` class (non-unicode mode): `[A-Za-z0-9_]`. -/
def isWordChar (c : Char) : Bool :=
  ('a' ≤ c && c ≤ 'z') || ('A' ≤ c && c ≤ 'Z') || ('0' ≤ c && c ≤ '9') || c = '_'

/-- Drop trailing JavaScript whitespace. -/
def dropTrailWS (s : Str) : Str := (s.reverse.dropWhile isWSChar).reverse

/-- `String.prototype.trim`. -/
def jsTrim (s : Str) : Str := dropTrailWS (s.dropWhile isWSChar)

/-- `pat` is a prefix of `s` (Boolean). -/
def begins (pat s : Str) : Bool :=
  match pat, s with
  | [], _ => true
  | _ :: _, [] => false
  | c :: cs, d :: ds => c = d && begins cs ds

/-- `String.prototype.endsWith`. -/
def endsWith (s pat : Str) : Bool := begins pat.reverse s.reverse

/-- Split `s` at the leftmost occurrence of `pat`: returns
`(before, rest)` with `s = before ++ rest` and `pat` a prefix of `rest`.
This is the search order of a JavaScript regex/`indexOf` scan. -/
def findSplit (s pat : Str) : Option (Str × Str) :=
  match s with
  | [] => if pat.isEmpty then some ([], []) else none
  | c :: rest =>
    if begins pat (c :: rest) then some ([], c :: rest)
    else (findSplit rest pat).map (fun p => (c :: p.1, p.2))

/-- Whether `pat` occurs somewhere in `s` (Boolean). -/
def hasSubB (s pat : Str) : Bool := (findSplit s pat).isSome

/-- The part of `s` strictly before the rightmost occurrence of `pat`
(`String.prototype.lastIndexOf` followed by `substring(0, idx)`).
`none` when `pat` (non-empty) does not occur. -/
def cutAtLast (s pat : Str) : Option Str :=
  match s with
  | [] => none
  | c :: rest =>
    match cutAtLast rest pat with
    | some r => some (c :: r)
    | none => if begins pat (c :: rest) then some [] else none

/-- `String.prototype.split('\n')`. -/
def splitLines (s : Str) : List Str :=
  match s with
  | [] => [[]]
  | c :: rest =>
    if c = '\n' then [] :: splitLines rest
    else
      match splitLines rest with
      | [] => [[c]]
      | l :: ls => (c :: l) :: ls

/-- `Array.prototype.join('\n')`. -/
def joinLines : List Str → Str
  | [] => []
  | [l] => l
  | l :: ls => l ++ '\n' :: joinLines ls

/-!
## The metadata regexes of `src/utils.ts`

`JSDOC_METADATA_REGEX = /\/\*\*\s*([\s\S]*?)\*\//`: the match runs from the
first `/**` to the first `*/` after it (the whitespace consumed by the
greedy `\s*` cannot contain `*`, so it never moves the lazy group's end);
the capture is the text between the whitespace run following `/**` and
that `*/`.  When the first `/**` has no `*/` after it, no later start can
have one either, so the regex fails.

`METADATA_REGEX = /\/\*\s*flows\.json (?:attributes|metadata)([\s\S]*?)\*\//`:
the engine tries each start position left to right and takes the first
position at which the whole pattern matches; the capture ends at the first
`*/` after the keyword.
-/

/-- Match result of `JSDOC_METADATA_REGEX` on `s`:
`(before, capture, after)` where the match itself is
`s = before ++ "/**" ++ ws ++ capture ++ "*/" ++ after`. -/
def jsdocParts (s : Str) : Option (Str × Str × Str) :=
  match findSplit s (str "/**") with
  | none => none
  | some (before, rest) =>
    match findSplit (rest.drop 3) (str "*/") with
    | none => none
    | some (mid, rest2) => some (before, mid.dropWhile isWSChar, rest2.drop 2)

/-- Attempt `METADATA_REGEX` anchored at the start of `s`:
on success returns `(capture, after)`. -/
def legacyTryHead (s : Str) : Option (Str × Str) :=
  if begins (str "/*") s then
    let r2 := (s.drop 2).dropWhile isWSChar
    if begins (str "flows.json ") r2 then
      let r3 := r2.drop 11
      let r4 :=
        if begins (str "attributes") r3 then some (r3.drop 10)
        else if begins (str "metadata") r3 then some (r3.drop 8)
        else none
      match r4 with
      | none => none
      | some r5 =>
        match findSplit r5 (str "*/") with
        | none => none
        | some (cap, rest2) => some (cap, rest2.drop 2)
    else none
  else none

/-- Leftmost match of `METADATA_REGEX`: `(before, capture, after)`.
(On the empty string the anchored attempt fails anyway, so the scan can
match on the list structure first.) -/
def legacyFind (s : Str) : Option (Str × Str × Str) :=
  match s with
  | [] => none
  | c :: rest =>
    match legacyTryHead (c :: rest) with
    | some (cap, after) => some ([], cap, after)
    | none => (legacyFind rest).map (fun p => (c :: p.1, p.2.1, p.2.2))

/-!
## The wrapper-start regex of `prepareScriptContent`

`/module\.exports\s*=\s*(?:async\s+)?function\s*\([^)]*\)\s*\{/`.
Each `\s*`/`\s+` is followed by a non-whitespace requirement, and
`[^)]*` is followed by `)`, so matching is deterministic maximal-munch;
the optional `async` branch can only apply when `async` is followed by
whitespace, and when it fails the empty branch fails too (text starting
`async…` never starts `function`).
-/

/-- Attempt the wrapper-start regex anchored at the start of `s`: on
success returns the remaining suffix after the match. -/
def wrapperTry (s : Str) : Option Str :=
  if begins (str "module.exports") s then
    let r2 := (s.drop 14).dropWhile isWSChar
    match r2 with
    | '=' :: r3 =>
      let r4 := r3.dropWhile isWSChar
      let r5 :=
        if begins (str "async") r4 then
          match r4.drop 5 with
          | c :: _ => if isWSChar c then (r4.drop 5).dropWhile isWSChar else r4
          | [] => r4
        else r4
      if begins (str "function") r5 then
        let r6 := (r5.drop 8).dropWhile isWSChar
        match r6 with
        | '(' :: r7 =>
          match r7.dropWhile (fun d => !(d = ')')) with
          | ')' :: r8 =>
            match r8.dropWhile isWSChar with
            | '\x7b' :: r9 => some r9
            | _ => none
          | _ => none
        | _ => none
      else none
    | _ => none
  else none

/-- Leftmost match of the wrapper-start regex: the suffix of `s` after the
match (`content.substring(startMatch.index + startMatch[0].length)`). -/
def findWrapperRem (s : Str) : Option Str :=
  match wrapperTry s with
  | some r => some r
  | none =>
    match s with
    | [] => none
    | _ :: rest => findWrapperRem rest

/-!
## Tag-line regexes of `getMetadata`

`/@nr-id\s+(.+)/` on one line: leftmost position where the literal tag is
followed by at least one whitespace and the greedy `(.+)` capture.  Since
every non-whitespace character is a dot-character, backtracking of the
greedy `\s+` only matters when the whitespace run reaches the end of the
line; then the engine retries with shorter runs whose last characters must
be dot-matchable whitespace.
-/

/-- Backtracking of `\s+(.+)` after the tag: try whitespace-run lengths
`w, w-1, …, 1`; the first one whose following character is dot-matchable
wins, and the capture is the maximal dot-run from there. -/
def tagTryW (rest : Str) : Nat → Option Str
  | 0 => none
  | w + 1 =>
    match rest.drop (w + 1) with
    | c :: _ =>
      if dotChar c then some ((rest.drop (w + 1)).takeWhile dotChar)
      else tagTryW rest w
    | [] => tagTryW rest w

/-- Match `\s+(.+)` against `rest` (the text after the tag): the capture. -/
def tagAfter (rest : Str) : Option Str :=
  tagTryW rest (rest.takeWhile isWSChar).length

/-- `line.match(/@<tag>\s+(.+)/)`: the capture of the leftmost match. -/
def tagCapture (tag line : Str) : Option Str :=
  match line with
  | [] => none
  | c :: rest =>
    if begins tag (c :: rest) then
      match tagAfter ((c :: rest).drop tag.length) with
      | some cap => some cap
      | none => tagCapture tag rest
    else tagCapture tag rest

/-!
## JSON values and `JSON.parse`

`JSON.parse` is a platform builtin (not code of this repository); it is
modelled by a standard JSON grammar parser.  Numbers are kept as their
literal token (exact for the string/absent fields the claims exercise; a
number's JavaScript rendering is approximated by its token).  A `\uXXXX`
escape denoting a lone UTF-16 surrogate cannot be represented as a Lean
`Char` and makes the model parser fail; no claim exercises it.
-/

/-- A JavaScript value produced by `JSON.parse`. -/
inductive JVal where
  | jstr (s : Str)
  | jnum (raw : Str)
  | jbool (b : Bool)
  | jnull
  | jobj (fields : List (Str × JVal))
  | jarr (elems : List JVal)

/-- A JSON number token denotes zero iff its mantissa has no nonzero
digit. -/
def jnumIsZero (raw : Str) : Bool :=
  (raw.takeWhile (fun c => !(c = 'e' || c = 'E'))).all
    (fun c => !('1' ≤ c && c ≤ '9'))

/-- JavaScript truthiness of a defined value. -/
def JVal.truthy : JVal → Bool
  | .jstr s => !s.isEmpty
  | .jnum raw => !(jnumIsZero raw)
  | .jbool b => b
  | .jnull => false
  | .jobj _ => true
  | .jarr _ => true

/-- Truthiness of a possibly-`undefined` value. -/
def truthyOpt : Option JVal → Bool
  | none => false
  | some v => v.truthy

/-- Strict equality `===` restricted to what the model can represent:
value equality on primitives.  Two distinct object/array expressions are
never `===` in this program's data flow (they come from separate
`JSON.parse` calls), so non-primitives compare unequal. -/
def jstrictEq : JVal → JVal → Bool
  | .jstr a, .jstr b => a = b
  | .jnum a, .jnum b => a = b
  | .jbool a, .jbool b => a = b
  | .jnull, .jnull => true
  | _, _ => false

mutual

/-- `String()` coercion (template literals, property keys).  Numbers render
as their token (see the module comment); array elements join with commas,
`null` elements rendering empty. -/
def jvalToStr : JVal → Str
  | .jstr s => s
  | .jnum raw => raw
  | .jbool true => str "true"
  | .jbool false => str "false"
  | .jnull => str "null"
  | .jobj _ => str "[object Object]"
  | .jarr es => jvalListToStr es

/-- Elements of an array joined with `,` as `Array.prototype.toString`
does. -/
def jvalListToStr : List JVal → Str
  | [] => []
  | [v] => (match v with | .jnull => [] | _ => jvalToStr v)
  | v :: rest => (match v with | .jnull => [] | _ => jvalToStr v) ++ ',' :: jvalListToStr rest

end

/-- `String()` coercion of a possibly-`undefined` value. -/
def jvalToStrOpt : Option JVal → Str
  | none => str "undefined"
  | some v => jvalToStr v

/-- JSON whitespace (insignificant between tokens): space, tab, LF, CR. -/
def jsonWS (s : Str) : Str :=
  s.dropWhile (fun c => c = ' ' || c = '\t' || c = '\n' || c = '\r')

/-- A hexadecimal digit's value. -/
def hexVal (c : Char) : Option Nat :=
  let n := c.toNat
  if 48 ≤ n && n ≤ 57 then some (n - 48)
  else if 97 ≤ n && n ≤ 102 then some (n - 87)
  else if 65 ≤ n && n ≤ 70 then some (n - 55)
  else none

/-- Parse the body of a JSON string after the opening quote; returns the
decoded characters and the text after the closing quote. -/
def parseStringBody : Nat → Str → Option (Str × Str)
  | 0, _ => none
  | _ + 1, [] => none
  | fuel + 1, c :: s =>
    if c = '"' then some ([], s)
    else if c = '\\' then
      match s with
      | [] => none
      | e :: r =>
        if e = '"' then (parseStringBody fuel r).map (fun p => ('"' :: p.1, p.2))
        else if e = '\\' then (parseStringBody fuel r).map (fun p => ('\\' :: p.1, p.2))
        else if e = '/' then (parseStringBody fuel r).map (fun p => ('/' :: p.1, p.2))
        else if e = 'b' then (parseStringBody fuel r).map (fun p => ('\x08' :: p.1, p.2))
        else if e = 'f' then (parseStringBody fuel r).map (fun p => ('\x0c' :: p.1, p.2))
        else if e = 'n' then (parseStringBody fuel r).map (fun p => ('\n' :: p.1, p.2))
        else if e = 'r' then (parseStringBody fuel r).map (fun p => ('\r' :: p.1, p.2))
        else if e = 't' then (parseStringBody fuel r).map (fun p => ('\t' :: p.1, p.2))
        else if e = 'u' then
          match r with
          | a :: b :: c2 :: d :: r2 =>
            match hexVal a, hexVal b, hexVal c2, hexVal d with
            | some ha, some hb, some hc, some hd =>
              let n := ((ha * 16 + hb) * 16 + hc) * 16 + hd
              if 0xd800 ≤ n && n ≤ 0xdbff then
                match r2 with
                | '\\' :: 'u' :: a2 :: b2 :: c3 :: d2 :: r3 =>
                  match hexVal a2, hexVal b2, hexVal c3, hexVal d2 with
                  | some ha2, some hb2, some hc2, some hd2 =>
                    let m := ((ha2 * 16 + hb2) * 16 + hc2) * 16 + hd2
                    if 0xdc00 ≤ m && m ≤ 0xdfff then
                      (parseStringBody fuel r3).map
                        (fun p => (Char.ofNat (0x10000 + (n - 0xd800) * 0x400 + (m - 0xdc00)) :: p.1, p.2))
                    else none
                  | _, _, _, _ => none
                | _ => none
              else if 0xdc00 ≤ n && n ≤ 0xdfff then none
              else (parseStringBody fuel r2).map (fun p => (Char.ofNat n :: p.1, p.2))
            | _, _, _, _ => none
          | _ => none
        else none
    else if c.toNat < 0x20 then none
    else (parseStringBody fuel s).map (fun p => (c :: p.1, p.2))

/-- Parse a JSON number token at the head of `s`; returns the token and
the rest. -/
def parseNumber (s : Str) : Option (JVal × Str) :=
  let (sign, s1) := match s with | '-' :: r => ((['-'] : Str), r) | _ => ([], s)
  match s1 with
  | c :: r1 =>
    if !c.isDigit then none
    else
      let (intPart, r2) :=
        if c = '0' then (([c] : Str), r1)
        else (s1.takeWhile Char.isDigit, s1.dropWhile Char.isDigit)
      if c = '0' && (match r1 with | d :: _ => d.isDigit | [] => false) then none
      else
        let (fracPart, r3) :=
          match r2 with
          | '.' :: f1 =>
            let ds := f1.takeWhile Char.isDigit
            if ds.isEmpty then ((none : Option Str), r2)
            else (some ('.' :: ds), f1.dropWhile Char.isDigit)
          | _ => (none, r2)
        match fracPart with
        | none =>
          if (match r2 with | '.' :: _ => true | _ => false) then none
          else
            match expPart r2 with
            | none => none
            | some (ep, r4) => some (.jnum (sign ++ intPart ++ ep), r4)
        | some fp =>
          match expPart r3 with
          | none => none
          | some (ep, r4) => some (.jnum (sign ++ intPart ++ fp ++ ep), r4)
  | [] => none
where
  /-- Optional exponent; fails only on a malformed exponent. -/
  expPart (t : Str) : Option (Str × Str) :=
    match t with
    | 'e' :: r | 'E' :: r =>
      let (sg, r1) := match r with
        | '+' :: r2 => ((['+'] : Str), r2)
        | '-' :: r2 => ((['-'] : Str), r2)
        | _ => ([], r)
      let ds := r1.takeWhile Char.isDigit
      if ds.isEmpty then none
      else some ((t.head?.elim [] (fun c => [c])) ++ sg ++ ds, r1.dropWhile Char.isDigit)
    | _ => some ([], t)

mutual

/-- Parse one JSON value (leading whitespace allowed); returns the value
and the rest. -/
def parseValue : Nat → Str → Option (JVal × Str)
  | 0, _ => none
  | fuel + 1, s =>
    match jsonWS s with
    | [] => none
    | '"' :: r => (parseStringBody (r.length + 1) r).map (fun p => (.jstr p.1, p.2))
    | '\x7b' :: r =>
      (match jsonWS r with
       | '\x7d' :: r2 => some (.jobj [], r2)
       | _ => parseMembers fuel r [])
    | '[' :: r =>
      (match jsonWS r with
       | ']' :: r2 => some (.jarr [], r2)
       | _ => parseElems fuel r [])
    | 't' :: r =>
      if begins (str "rue") r then some (.jbool true, r.drop 3) else none
    | 'f' :: r =>
      if begins (str "alse") r then some (.jbool false, r.drop 4) else none
    | 'n' :: r =>
      if begins (str "ull") r then some (.jnull, r.drop 3) else none
    | s1 => parseNumber s1

/-- Parse the members of an object after `{` (at least one member). -/
def parseMembers : Nat → Str → List (Str × JVal) → Option (JVal × Str)
  | 0, _, _ => none
  | fuel + 1, s, acc =>
    match jsonWS s with
    | '"' :: r =>
      (match parseStringBody (r.length + 1) r with
       | none => none
       | some (key, r2) =>
         match jsonWS r2 with
         | ':' :: r3 =>
           (match parseValue fuel r3 with
            | none => none
            | some (v, r4) =>
              match jsonWS r4 with
              | ',' :: r5 => parseMembers fuel r5 (acc ++ [(key, v)])
              | '\x7d' :: r5 => some (.jobj (acc ++ [(key, v)]), r5)
              | _ => none)
         | _ => none)
    | _ => none

/-- Parse the elements of an array after `[` (at least one element). -/
def parseElems : Nat → Str → List JVal → Option (JVal × Str)
  | 0, _, _ => none
  | fuel + 1, s, acc =>
    match parseValue fuel s with
    | none => none
    | some (v, r) =>
      match jsonWS r with
      | ',' :: r2 => parseElems fuel r2 (acc ++ [v])
      | ']' :: r2 => some (.jarr (acc ++ [v]), r2)
      | _ => none

end

/-- `JSON.parse`: the whole input must be one value plus whitespace. -/
def jsonParse (s : Str) : Option JVal :=
  match parseValue (s.length + 2) s with
  | some (v, rest) => if jsonWS rest = [] then some v else none
  | none => none

/-- Property access on a parse result: `JSON.parse` keeps the last of
duplicate keys. -/
def jlookup (v : JVal) (k : Str) : Option JVal :=
  match v with
  | .jobj fields => (fields.reverse.find? (fun e => e.1 = k)).map (·.2)
  | _ => none

/-- `a || b` where `a` may be `undefined`. -/
def jsOrJ (a : Option JVal) (b : JVal) : JVal :=
  match a with
  | some v => if v.truthy then v else b
  | none => b

/-!
## `src/utils.ts`: the metadata codec and the script wrapper
-/

/-- The decoded `Metadata` of `getMetadata`.  TypeScript declares
`{ id: string; name?: string; z: string }`, but the legacy branch copies
whatever `JSON.parse` produced: `id`/`name` may be absent (`undefined`)
and any field may hold a non-string value. -/
structure Metadata where
  id : Option JVal
  name : Option JVal
  z : JVal

/-- Accumulator of the structured (JSDoc) decode loop. -/
structure PartialMeta where
  id : Option Str := none
  name : Option Str := none
  z : Option Str := none

/-- One loop iteration of the structured decode: the three tag regexes are
matched against the line; a successful capture (always non-empty, hence
truthy) overwrites the field with its trimmed value. -/
def applyLine (m : PartialMeta) (line : Str) : PartialMeta :=
  let m1 := match tagCapture (str "@nr-id") line with
            | some v => { m with id := some (jsTrim v) }
            | none => m
  let m2 := match tagCapture (str "@nr-name") line with
            | some v => { m1 with name := some (jsTrim v) }
            | none => m1
  match tagCapture (str "@nr-z") line with
  | some v => { m2 with z := some (jsTrim v) }
  | none => m2

/-- The legacy branch of `getMetadata` (`src/utils.ts` lines 66-86): match
the `flows.json attributes` block, wrap the interior in braces when
needed, strip commas before closing braces, `JSON.parse` it, and read
`id`, `name` and `z || tabId || ''`. -/
def getMetadataLegacy (content : Str) : Option Metadata :=
  match legacyFind content with
  | none => none
  | some (_, cap, _) =>
    let metaStr := jsTrim cap
    if metaStr.isEmpty then none
    else
      let metaStr2 :=
        if begins (str "\x7b") metaStr then metaStr
        else '\x7b' :: (metaStr ++ ['\x7d'])
      let metaStr3 := replaceCommaBrace (metaStr2.length + 1) metaStr2
      match jsonParse metaStr3 with
      | none => none
      | some data =>
        some { id := jlookup data (str "id"),
               name := jlookup data (str "name"),
               z := jsOrJ (jlookup data (str "z"))
                      (jsOrJ (jlookup data (str "tabId")) (.jstr [])) }
where
  /-- Global replace of `/,\s*}/g` by `}` (fuel-indexed scan; the scan
  resumes after each replacement, as a global regex does). -/
  replaceCommaBrace : Nat → Str → Str
  | 0, s => s
  | fuel + 1, s =>
    match s with
    | [] => []
    | c :: rest =>
      if c = ',' then
        match rest.dropWhile isWSChar with
        | '\x7d' :: r3 => '\x7d' :: replaceCommaBrace fuel r3
        | _ => ',' :: replaceCommaBrace fuel rest
      else c :: replaceCommaBrace fuel rest

/-- `getMetadata` (`src/utils.ts` lines 48-87): try the structured JSDoc
form on the first doc comment; on failure fall back to the legacy form.
The structured form succeeds only when the capture is non-empty (truthy
`jsdocMatch[1]`) and both decoded `id` and `z` are truthy. -/
def getMetadata (content : Str) : Option Metadata :=
  match jsdocParts content with
  | some (_, cap, _) =>
    if cap.isEmpty then getMetadataLegacy content
    else
      let pm := (splitLines cap).foldl applyLine {}
      match pm.id, pm.z with
      | some i, some z =>
        if !i.isEmpty && !z.isEmpty then
          some { id := some (.jstr i), name := pm.name.map .jstr, z := .jstr z }
        else getMetadataLegacy content
      | _, _ => getMetadataLegacy content
  | none => getMetadataLegacy content

/-- `prepareScriptContent` (`src/utils.ts` lines 89-113): remove the first
JSDoc block and the first legacy block, trim, strip the wrapper header up
to and including its `{`, cut at the last `};`, and trim the interior.
Without a wrapper match the metadata-stripped content is returned. -/
def prepareScriptContent (raw : Str) : Str :=
  let c1 := match jsdocParts raw with
            | some (before, _, after) => before ++ after
            | none => raw
  let c2 := match legacyFind c1 with
            | some (before, _, after) => before ++ after
            | none => c1
  let content := jsTrim c2
  match findWrapperRem content with
  | some t =>
    (match cutAtLast t (str "\x7d;") with
     | some i => jsTrim i
     | none => jsTrim t)
  | none => content

/-- Indent one line of the body as `wrapScriptContent` does: non-blank
lines get four spaces. -/
def indentLine (l : Str) : Str :=
  if (jsTrim l).isEmpty then l else str "    " ++ l

/-- The body reindented line by line. -/
def indentBody (b : Str) : Str := joinLines ((splitLines b).map indentLine)

/-- `wrapScriptContent` (`src/utils.ts` lines 115-128): the wrapper
boilerplate around the indented body, followed by the structured metadata
block, trimmed with a final newline.  (`nodeName || ''` equals `nodeName`
for strings.) -/
def wrapScriptContent (nodeId nodeName funcBody z : Str) : Str :=
  jsTrim (str "module.exports = function (msg, flow, env, node, global, context) \x7b\n"
      ++ indentBody funcBody
      ++ str "\n\x7d;\n\n/**\n * @nr-id " ++ nodeId
      ++ str "\n * @nr-name " ++ nodeName
      ++ str "\n * @nr-z " ++ z
      ++ str "\n */\n") ++ ['\n']

/-!
## Filesystem model

The directory walks (`walk` in `buildIdMap`, `sync.ts`'s `scanScripts`)
read a directory listing in order, recurse into subdirectories, and
process eligible files.  A directory tree is modelled as a list of named
entries; `readdirSync` order is the list order, and `path.join` is `/`
concatenation (exact for the normal segment names that occur here).
-/

/-- One filesystem entry: a regular file with content, or a directory. -/
inductive FSEntry where
  | file (nm : Str) (content : Str)
  | dir (nm : Str) (entries : List FSEntry)

/-- `path.join` for normal segments. -/
def pathJoin (dir nm : Str) : Str := dir ++ '/' :: nm

/-- Filename eligibility shared by the walks: `.js` or `.ts`. -/
def eligibleExt (nm : Str) : Bool :=
  endsWith nm (str ".js") || endsWith nm (str ".ts")

/-- `Map.prototype.set`: an existing key keeps its position and gets the
new value; a new key is appended.  Key equality is SameValueZero,
modelled by `jstrictEq`. -/
def mapSetJ (m : List (JVal × Str)) (k : JVal) (v : Str) : List (JVal × Str) :=
  if m.any (fun e => jstrictEq e.1 k) then
    m.map (fun e => if jstrictEq e.1 k then (e.1, v) else e)
  else m ++ [(k, v)]

/-- `Map.prototype.has` called with a string. -/
def mapHasStr (m : List (JVal × Str)) (i : Str) : Bool :=
  m.any (fun e => jstrictEq e.1 (.jstr i))

mutual

/-- `buildIdMap`'s walk over one entry (`src/utils.ts` lines 20-42): a
directory recurses; an eligible file whose metadata decodes with a truthy
`id` records `id -> filepath`. -/
def buildWalkEntry (dirPath : Str) (acc : List (JVal × Str)) :
    FSEntry → List (JVal × Str)
  | .file nm content =>
    if eligibleExt nm then
      match getMetadata content with
      | some meta =>
        (match meta.id with
         | some idv => if idv.truthy then mapSetJ acc idv (pathJoin dirPath nm) else acc
         | none => acc)
      | none => acc
    else acc
  | .dir nm entries => buildWalkList (pathJoin dirPath nm) acc entries

/-- The walk over a directory listing, in order. -/
def buildWalkList (dirPath : Str) (acc : List (JVal × Str)) :
    List FSEntry → List (JVal × Str)
  | [] => acc
  | e :: rest => buildWalkList dirPath (buildWalkEntry dirPath acc e) rest

end

/-- `buildIdMap(rootDir)` over a modelled tree (an absent directory is the
empty listing). -/
def buildIdMap (rootDir : Str) (tree : List FSEntry) : List (JVal × Str) :=
  buildWalkList rootDir [] tree

/-- One record of the `updates` object collected by `scanScripts`
(`sync`, `src/unnamed/part_001` lines 40-75); the `file` field is only
logged, the others drive the document update. -/
structure UpdRec where
  file : Str
  name : Option JVal
  z : JVal
  content : Str

/-- Record-object assignment `updates[k] = v`: an existing key keeps its
position; property keys are strings. -/
def recSet (m : List (Str × UpdRec)) (k : Str) (v : UpdRec) : List (Str × UpdRec) :=
  if m.any (fun e => e.1 = k) then
    m.map (fun e => if e.1 = k then (e.1, v) else e)
  else m ++ [(k, v)]

mutual

/-- `scanScripts`'s walk over one entry: eligible files (no test/spec
exclusion is performed here) whose metadata decodes with a truthy `id`
are stored under the string-coerced id. -/
def scanWalkEntry (dirPath : Str) (acc : List (Str × UpdRec)) :
    FSEntry → List (Str × UpdRec)
  | .file nm content =>
    if eligibleExt nm then
      match getMetadata content with
      | some meta =>
        (match meta.id with
         | some idv =>
           if idv.truthy then
             recSet acc (jvalToStr idv)
               ⟨pathJoin dirPath nm, meta.name, meta.z, content⟩
           else acc
         | none => acc)
      | none => acc
    else acc
  | .dir nm entries => scanWalkList (pathJoin dirPath nm) acc entries

/-- The walk over a directory listing, in order. -/
def scanWalkList (dirPath : Str) (acc : List (Str × UpdRec)) :
    List FSEntry → List (Str × UpdRec)
  | [] => acc
  | e :: rest => scanWalkList dirPath (scanWalkEntry dirPath acc e) rest

end

/-- `scanScripts(rootDir)` over a modelled tree. -/
def scanScripts (rootDir : Str) (tree : List FSEntry) : List (Str × UpdRec) :=
  scanWalkList rootDir [] tree

/-!
## The document model and `sync`'s `run`

A document node.  In the document format the relevant fields are strings;
absent optional string fields are modelled as the empty string, which the
code's `|| `-defaulting cannot distinguish from absence.  `z` is kept as a
`JVal` because `run` assigns a decoded metadata value (`node.z = data.z`)
into it verbatim; an absent `z` is modelled as the empty string value
(falsy, absent from every container map, and distinct from every truthy
decoded `z`, like `undefined`).
-/

structure Node where
  id : Str
  type : Str
  name : Str
  label : Str
  func : Str
  z : JVal

/-- Index of the last node carrying `i` — the entry `new Map(flows.map(n
=> [n.id, n]))` keeps (later entries overwrite earlier ones). -/
def findLastIdx (flows : List Node) (i : Str) : Option Nat :=
  match flows with
  | [] => none
  | n :: rest =>
    match findLastIdx rest i with
    | some k => some (k + 1)
    | none => if n.id = i then some 0 else none

/-- One iteration of `run`'s update loop (`src/unnamed/part_001` lines
109-138) over `(flows, updatedCount)`: look the id up, recompute the body
with `prepareScriptContent`, update `func` when it differs, update `z`
when the decoded `z` is truthy and strictly differs; an untouched node
leaves the document untouched. -/
def syncStep (acc : List Node × Nat) (ent : Str × UpdRec) : List Node × Nat :=
  match findLastIdx acc.1 ent.1 with
  | none => acc
  | some ix =>
    match acc.1.get? ix with
    | none => acc
    | some node =>
      let newFunc := prepareScriptContent ent.2.content
      let funcChanged := !(node.func = newFunc : Bool)
      let node1 := if funcChanged then { node with func := newFunc } else node
      let zChanged := ent.2.z.truthy && !(jstrictEq node1.z ent.2.z)
      let node2 := if zChanged then { node1 with z := ent.2.z } else node1
      if funcChanged || zChanged then (acc.1.set ix node2, acc.2 + 1)
      else acc

/-- The whole update loop of `run`: fold over `Object.entries(updates)`
(insertion order; `scanScripts` keys are unique). -/
def syncRun (updates : List (Str × UpdRec)) (flows : List Node) : List Node × Nat :=
  updates.foldl syncStep (flows, 0)

/-- `run` writes the document back iff `updatedCount > 0`. -/
def syncWrites (updates : List (Str × UpdRec)) (flows : List Node) : Bool :=
  (syncRun updates flows).2 > 0

/-!
## `src/extract.ts`: sanitize, target path, metrics, scan
-/

/-- Characters kept by `sanitize`'s collapse step: `[a-z0-9]`. -/
def isSlugChar (c : Char) : Bool :=
  ('a' ≤ c && c ≤ 'z') || ('0' ≤ c && c ≤ '9')

/-- `toLowerCase` (ASCII; the names in this repository are ASCII). -/
def toLowerStr (s : Str) : Str := s.map Char.toLower

/-- `.replace(/[^a-z0-9]+/g, '-')`: each maximal run of non-slug
characters becomes a single `-`. -/
def collapseNonAlnum (s : Str) : Str :=
  match s with
  | [] => []
  | c :: rest =>
    if isSlugChar c then c :: collapseNonAlnum rest
    else '-' :: collapseNonAlnum (rest.dropWhile (fun d => !isSlugChar d))
termination_by s.length
decreasing_by
· simp
· simp only [List.length_cons]
  exact Nat.lt_succ_of_le (List.dropWhile_suffix _).length_le

/-- `.replace(/^-+|-+$/g, '')`: strip leading and trailing dashes. -/
def trimDashes (s : Str) : Str :=
  ((s.dropWhile (fun c => c = '-')).reverse.dropWhile (fun c => c = '-')).reverse

/-- `sanitize` (`src/extract.ts` lines 163-167). -/
def sanitize (s : Str) : Str := trimDashes (collapseNonAlnum (toLowerStr s))

/-- `a || b` for strings. -/
def jsOrStr (a b : Str) : Str := if a.isEmpty then b else a

/-- String-keyed `Map.prototype.set`. -/
def mapSetStr (m : List (Str × Str)) (k : Str) (v : Str) : List (Str × Str) :=
  if m.any (fun e => e.1 = k) then
    m.map (fun e => if e.1 = k then (e.1, v) else e)
  else m ++ [(k, v)]

/-- `Map.prototype.get` called with the node's `z` value: only a string
`z` can equal a string key (SameValueZero). -/
def mapGetJ (m : List (Str × Str)) (k : JVal) : Option Str :=
  match k with
  | .jstr s => (m.find? (fun e => e.1 = s)).map (·.2)
  | _ => none

/-- The tab/container map of `extract.ts`'s `run` (lines 204-211):
tabs map to `label || 'unnamed'`, subflows to `name || 'unnamed'`. -/
def tabMapExtract (flows : List Node) : List (Str × Str) :=
  flows.foldl
    (fun m n =>
      if n.type = str "tab" then mapSetStr m n.id (jsOrStr n.label (str "unnamed"))
      else if n.type = str "subflow" then mapSetStr m n.id (jsOrStr n.name (str "unnamed"))
      else m) []

/-- The canonical target path computed by `extract.ts`'s `run` (lines
213-219): `targetDir = SRC/sanitize(tabMap.get(z) || 'global')`, filename
`sanitize(node.name || nodeId) + '.js'`.  `none` when the id is not in
the document (`run` exits before line 213). -/
def extractTargetPath (srcDir : Str) (flows : List Node) (nodeId : Str) : Option Str :=
  match flows.find? (fun n => n.id = nodeId) with
  | none => none
  | some node =>
    let tabName :=
      match mapGetJ (tabMapExtract flows) node.z with
      | some s => jsOrStr s (str "global")
      | none => str "global"
    let nodeName := jsOrStr node.name nodeId
    some (pathJoin (pathJoin srcDir (sanitize tabName))
            (sanitize nodeName ++ str ".js"))

/-!
## Complexity metrics and the scan report

`COMPLEXITY_REGEX = /\b(if|else|for|while|case|catch|switch|do)\b|&&|\|\||\?/g`.
A global regex finds successive non-overlapping leftmost matches.  At one
position the keyword alternative applies when a word boundary precedes,
one of the keywords (tried in order; none is a prefix of another) matches
and a word boundary follows; otherwise `&&`, `||`, `?` are tried.
-/

/-- The keyword alternatives, in the regex's order. -/
def complexityKws : List Str :=
  [str "if", str "else", str "for", str "while", str "case",
   str "catch", str "switch", str "do"]

/-- First keyword matching at the head of `t` with a word boundary after
it; returns its length. -/
def findKw (t : Str) : List Str → Option Nat
  | [] => none
  | k :: ks =>
    if begins k t then
      match t.drop k.length with
      | [] => some k.length
      | d :: _ => if isWordChar d then findKw t ks else some k.length
    else findKw t ks

/-- Attempt one complexity-token match at the head of `t`, given the
previous character (`none` at the start of the string): returns the match
length. -/
def tryComplexTok (prev : Option Char) (t : Str) : Option Nat :=
  let kw :=
    if (match prev with | none => true | some p => !isWordChar p) then
      findKw t complexityKws
    else none
  match kw with
  | some l => some l
  | none =>
    if begins (str "&&") t then some 2
    else if begins (str "||") t then some 2
    else if begins (str "?") t then some 1
    else none

/-- Count the global matches of `COMPLEXITY_REGEX`: scan left to right,
jumping over each match. -/
def complexCountAux : Nat → Option Char → Str → Nat
  | 0, _, _ => 0
  | _ + 1, _, [] => 0
  | fuel + 1, prev, c :: rest =>
    match tryComplexTok prev (c :: rest) with
    | some l =>
      1 + complexCountAux fuel ((c :: rest).take l).getLast? ((c :: rest).drop l)
    | none => complexCountAux fuel (some c) rest

/-- The number of branching/logical-operator tokens in `code`. -/
def countComplexTokens (code : Str) : Nat :=
  complexCountAux (code.length + 1) none code

/-- `calculateMetrics` (`src/extract.ts` lines 51-61): non-blank line
count and `1 +` the token count. -/
def calculateMetrics (code : Str) : Nat × Nat :=
  (((splitLines code).filter (fun l => !(jsTrim l).isEmpty)).length,
   1 + countComplexTokens code)

/-- One row of the scan report. -/
structure Candidate where
  name : Str
  id : Str
  loc : Nat
  complexity : Nat
  exported : Bool
  tab : Str

/-- The tab/container map of `scanFunctions` (lines 68-74): defaults
`'Unknown Tab'` / `'Unknown Subflow'`. -/
def tabMapScan (flows : List Node) : List (Str × Str) :=
  flows.foldl
    (fun m n =>
      if n.type = str "tab" then mapSetStr m n.id (jsOrStr n.label (str "Unknown Tab"))
      else if n.type = str "subflow" then mapSetStr m n.id (jsOrStr n.name (str "Unknown Subflow"))
      else m) []

/-- The candidate list collected by `scanFunctions` (lines 76-96):
`"function"`-typed nodes with a non-empty body, in document order. -/
def scanCandidates (flows : List Node) (srcDir : Str) (tree : List FSEntry) :
    List Candidate :=
  flows.filterMap (fun node =>
    if node.type = str "function" then
      if node.func.isEmpty then none
      else
        let m := calculateMetrics node.func
        some { name := jsOrStr node.name (str "unnamed"),
               id := node.id,
               loc := m.1,
               complexity := m.2,
               exported := mapHasStr (buildIdMap srcDir tree) node.id,
               tab := (match mapGetJ (tabMapScan flows) node.z with
                       | some s => jsOrStr s (str "Global/Subflow")
                       | none => str "Global/Subflow") }
    else none)

/-- Stable insertion into a descending-by-complexity list: walk past
strictly more complex rows, insert before the first row that is not. -/
def insertDesc (a : Candidate) : List Candidate → List Candidate
  | [] => [a]
  | b :: rest =>
    if a.complexity < b.complexity then b :: insertDesc a rest
    else a :: b :: rest

/-- `candidates.sort((a, b) => b.complexity - a.complexity)`: JavaScript's
sort is stable and this comparator induces the descending complexity
preorder, so the result is the stable descending sort. -/
def sortDesc : List Candidate → List Candidate
  | [] => []
  | a :: rest => insertDesc a (sortDesc rest)

/-- The printed report of `scanFunctions` (lines 98-112): the sorted
candidates, sliced to the top 20. -/
def scanReport (flows : List Node) (srcDir : Str) (tree : List FSEntry) :
    List Candidate :=
  (sortDesc (scanCandidates flows srcDir tree)).take 20

/-!
## `src/migrate.ts`: per-file migration
-/

/-- The per-file migration decision of `src/migrate.ts` (lines 60-81),
given the file content (the filename filter is outside): skip when a
JSDoc block is present; else decode metadata; when metadata decodes, the
wrapper marker is present and a legacy block matches, rewrite the file as
`wrapScriptContent(meta.id, meta.name || '', prepareScriptContent(content),
meta.z)` — the template coerces an absent `id` to the string
`"undefined"`.  `none` means the file is left unchanged. -/
def migrateFileContent (content : Str) : Option Str :=
  if (jsdocParts content).isSome then none
  else
    match getMetadata content with
    | none => none
    | some meta =>
      let hasWrapper :=
        hasSubB content (str "module.exports = function")
        || hasSubB content (str "module.exports = async function")
      if hasWrapper && (legacyFind content).isSome then
        some (wrapScriptContent (jvalToStrOpt meta.id)
                (if truthyOpt meta.name then jvalToStrOpt meta.name else [])
                (prepareScriptContent content)
                (jvalToStr meta.z))
      else none

/-!
## Named pieces of the wrapped-file shape

`wrapScriptContent` produces
`hdrP ++ indentBody body ++ sepMid ++ "/**" ++ tagsBlock id name z ++ "*/" ++ "\n"`;
naming the pieces keeps the theorems below readable.
-/

/-- The wrapper boilerplate header, including its newline. -/
def hdrP : Str :=
  str "module.exports = function (msg, flow, env, node, global, context) \x7b\n"

/-- Between the indented body and the metadata block: the closing `};` and
a blank line. -/
def sepMid : Str := str "\n\x7d;\n\n"

/-- The interior of the structured metadata doc comment (between `/**`
and `*/`). -/
def tagsBlock (id name z : Str) : Str :=
  str "\n * @nr-id " ++ id ++ str "\n * @nr-name " ++ name
    ++ str "\n * @nr-z " ++ z ++ str "\n "

/-!
## Specification-side definitions

These definitions follow the wording of the specification/claims rather
than the source; theorems compare them with the source-derived
definitions above.
-/

/-- The claim's `normalize`: trim trailing whitespace of every line. -/
def normalizeTrailLines (s : Str) : Str :=
  joinLines ((splitLines s).map dropTrailWS)

/-- The specification's slug collapse, written as a character scan with a
"just emitted a separator" flag: each maximal non-alphanumeric run
becomes one `-`. -/
def collapseSpecAux : Bool → Str → Str
  | _, [] => []
  | afterSep, c :: rest =>
    if isSlugChar c then c :: collapseSpecAux false rest
    else if afterSep then collapseSpecAux true rest
    else '-' :: collapseSpecAux true rest

/-- The specification's slug: lowercase, collapse non-alphanumeric runs
to single separators, trim leading/trailing separators. -/
def slugSpec (s : Str) : Str := trimDashes (collapseSpecAux false (toLowerStr s))

/-- `pat` occurs somewhere in `s` (it is a prefix of some suffix). -/
def Occ (pat s : Str) : Prop := ∃ t, t <:+ s ∧ pat <+: t

/-- The post-state of `run`'s loop for one update entry: the node the
entry's id resolves to already carries the recomputed body, and (when the
decoded `z` is truthy) a strictly-equal `z`.  `syncStep` leaves such a
document untouched. -/
def Good (flows : List Node) (ent : Str × UpdRec) : Prop :=
  ∀ ix node, findLastIdx flows ent.1 = some ix → flows.get? ix = some node →
    node.func = prepareScriptContent ent.2.content ∧
    (ent.2.z.truthy = true → jstrictEq node.z ent.2.z = true)

/-!
# Theorems

## Occurrence lemmas
-/


theorem begins_iff {pat s : Str} : begins pat s = true ↔ pat <+: s := by
  induction pat generalizing s with
  | nil => simp [begins]
  | cons c cs ih =>
    cases s with
    | nil => simp [begins]
    | cons d ds =>
      simp only [begins, Bool.and_eq_true, decide_eq_true_eq, ih,
        List.cons_prefix_cons]

theorem occ_of_pfx {pat s : Str} (h : pat <+: s) : Occ pat s :=
  ⟨s, List.suffix_refl s, h⟩

theorem occ_cons_iff {pat : Str} {c : Char} {s : Str} :
    Occ pat (c :: s) ↔ pat <+: (c :: s) ∨ Occ pat s := by
  constructor
  · rintro ⟨t, ht, hp⟩
    rcases List.suffix_cons_iff.mp ht with h | h
    · exact Or.inl (h ▸ hp)
    · exact Or.inr ⟨t, h, hp⟩
  · rintro (h | ⟨t, ht, hp⟩)
    · exact occ_of_pfx h
    · exact ⟨t, List.suffix_cons_iff.mpr (Or.inr ht), hp⟩

theorem occ_nil_iff {pat : Str} : Occ pat [] ↔ pat = [] := by
  constructor
  · rintro ⟨t, ht, hp⟩
    have ht' := List.suffix_nil.mp ht
    subst ht'
    exact List.prefix_nil.mp hp
  · rintro rfl
    exact occ_of_pfx List.nil_prefix

theorem occ_suffix_mono {pat s₁ s₂ : Str} (h : s₁ <:+ s₂) (ho : Occ pat s₁) :
    Occ pat s₂ := by
  obtain ⟨t, ht, hp⟩ := ho
  exact ⟨t, ht.trans h, hp⟩

theorem findSplit_cons (pat : Str) (c : Char) (rest : Str) :
    findSplit (c :: rest) pat =
      if begins pat (c :: rest) then some ([], c :: rest)
      else (findSplit rest pat).map (fun p => (c :: p.1, p.2)) := rfl

theorem findSplit_eq_none_iff {s pat : Str} :
    findSplit s pat = none ↔ ¬ Occ pat s := by
  induction s with
  | nil =>
    by_cases h : pat = []
    · subst h; simp [findSplit, occ_nil_iff]
    · simp [findSplit, occ_nil_iff, h, List.isEmpty_iff]
  | cons c rest ih =>
    rw [findSplit_cons]
    by_cases hb : begins pat (c :: rest) = true
    · rw [if_pos hb]
      constructor
      · intro h; cases h
      · intro h
        exact (h (occ_cons_iff.mpr (Or.inl (begins_iff.mp hb)))).elim
    · rw [if_neg hb, Option.map_eq_none', ih, occ_cons_iff]
      constructor
      · rintro h (hp | ho)
        · exact hb (begins_iff.mpr hp)
        · exact h ho
      · intro h ho
        exact h (Or.inr ho)

theorem hasSubB_false_iff {s pat : Str} :
    hasSubB s pat = false ↔ ¬ Occ pat s := by
  rw [← findSplit_eq_none_iff, hasSubB]
  cases findSplit s pat <;> simp

theorem findSplit_eq_some {s pat b r : Str} (h : findSplit s pat = some (b, r)) :
    s = b ++ r ∧ pat <+: r := by
  induction s generalizing b with
  | nil =>
    by_cases hp : pat = []
    · subst hp
      simp only [findSplit, List.isEmpty_nil, if_true, Option.some_inj,
        Prod.mk.injEq] at h
      obtain ⟨rfl, rfl⟩ := h
      exact ⟨rfl, List.prefix_refl _⟩
    · simp [findSplit, hp, List.isEmpty_iff] at h
  | cons c rest ih =>
    rw [findSplit_cons] at h
    by_cases hb : begins pat (c :: rest) = true
    · rw [if_pos hb, Option.some_inj] at h
      obtain ⟨rfl, rfl⟩ := Prod.mk.injEq _ _ _ _ ▸ h
      exact ⟨rfl, begins_iff.mp hb⟩
    · rw [if_neg hb, Option.map_eq_some'] at h
      obtain ⟨⟨b', r'⟩, hfs, heq⟩ := h
      simp only [Prod.mk.injEq] at heq
      obtain ⟨rfl, rfl⟩ := heq
      obtain ⟨h1, h2⟩ := ih hfs
      exact ⟨by simp [h1], h2⟩

theorem hasSubB_true_iff {s pat : Str} :
    hasSubB s pat = true ↔ Occ pat s := by
  rw [hasSubB]
  cases h : findSplit s pat with
  | none => simpa using findSplit_eq_none_iff.mp h
  | some p =>
    obtain ⟨h1, h2⟩ := findSplit_eq_some (by rw [h])
    simp only [Option.isSome_some, true_iff]
    exact ⟨p.2, ⟨p.1, h1.symm⟩, h2⟩

theorem occ_decomp {pat s : Str} : Occ pat s ↔ ∃ u v, s = u ++ pat ++ v := by
  constructor
  · rintro ⟨t, ⟨u, rfl⟩, ⟨v, rfl⟩⟩
    exact ⟨u, v, by simp⟩
  · rintro ⟨u, v, rfl⟩
    exact ⟨pat ++ v, ⟨u, by simp⟩, ⟨v, rfl⟩⟩

theorem cutAtLast_eq_none_iff {s pat : Str} (hpat : pat ≠ []) :
    cutAtLast s pat = none ↔ ¬ Occ pat s := by
  induction s with
  | nil =>
    simp only [cutAtLast, true_iff, occ_nil_iff]
    exact fun h => hpat h
  | cons c rest ih =>
    cases hr : cutAtLast rest pat with
    | some r =>
      simp only [cutAtLast, hr]
      constructor
      · intro h; cases h
      · intro h
        have : Occ pat rest := by
          by_contra ho
          rw [ih.mpr ho] at hr; cases hr
        exact (h (occ_cons_iff.mpr (Or.inr this))).elim
    | none =>
      simp only [cutAtLast, hr]
      by_cases hb : begins pat (c :: rest) = true
      · rw [if_pos hb]
        constructor
        · intro h; cases h
        · intro h
          exact (h (occ_cons_iff.mpr (Or.inl (begins_iff.mp hb)))).elim
      · rw [if_neg hb]
        simp only [true_iff, occ_cons_iff]
        rintro (hp | ho)
        · exact hb (begins_iff.mpr hp)
        · exact (ih.mp hr) ho

theorem cutAtLast_append_self {x pat : Str} (hpat : pat ≠ []) :
    cutAtLast (x ++ pat) pat = some x := by
  induction x with
  | nil =>
    cases pat with
    | nil => exact absurd rfl hpat
    | cons a as =>
      have hnone : cutAtLast as (a :: as) = none := by
        rw [cutAtLast_eq_none_iff (by simp)]
        rintro ⟨t, ht, hp⟩
        have h1 : (a :: as).length ≤ t.length := hp.length_le
        have h2 : t.length ≤ as.length := ht.length_le
        simp only [List.length_cons] at h1
        omega
      simp only [List.nil_append, cutAtLast, hnone]
      rw [if_pos (begins_iff.mpr (List.prefix_refl _))]
  | cons c x' ih =>
    rw [List.cons_append]
    have hstep : cutAtLast (c :: (x' ++ pat)) pat =
        match cutAtLast (x' ++ pat) pat with
        | some r => some (c :: r)
        | none => if begins pat (c :: (x' ++ pat)) then some [] else none := rfl
    rw [hstep, ih]

theorem suffix_append_cases {t x y : Str} (h : t <:+ x ++ y) :
    t <:+ y ∨ ∃ t', t' <:+ x ∧ t = t' ++ y := by
  induction x with
  | nil => exact Or.inl (by simpa using h)
  | cons c x' ih =>
    rw [List.cons_append, List.suffix_cons_iff] at h
    rcases h with h | h
    · exact Or.inr ⟨c :: x', List.suffix_refl _, by simpa using h⟩
    · rcases ih h with h' | ⟨t', ht', rfl⟩
      · exact Or.inl h'
      · exact Or.inr ⟨t', ht'.trans (List.suffix_cons c x'), rfl⟩

theorem pfx_append_drop {pat t y : Str} (hlen : t.length < pat.length)
    (hp : pat <+: t ++ y) : pat.take t.length = t ∧ pat.drop t.length <+: y := by
  have htp : t <+: pat := by
    refine List.prefix_of_prefix_length_le ?_ hp (Nat.le_of_lt hlen)
    exact ⟨y, rfl⟩
  have htake : pat.take t.length = t := by
    obtain ⟨r, rfl⟩ := htp
    simp
  refine ⟨htake, ?_⟩
  have hpat : pat = t ++ pat.drop t.length := by
    conv_lhs => rw [← List.take_append_drop t.length pat]
    rw [htake]
  rw [hpat] at hp
  exact (List.prefix_append_right_inj t).mp hp

theorem no_pfx_mid {pat x y : Str} (hno : ¬ Occ pat x)
    (hcross : ∀ k, k < pat.length → 0 < k →
      ¬ ((pat.take k) <:+ x ∧ (pat.drop k) <+: y)) :
    ∀ t, t <:+ x → t ≠ [] → ¬ pat <+: (t ++ y) := by
  intro t ht htne hp
  by_cases hlen : pat.length ≤ t.length
  · have : pat <+: t := by
      refine List.prefix_of_prefix_length_le hp ?_ hlen
      exact ⟨y, rfl⟩
    exact hno ⟨t, ht, this⟩
  · push_neg at hlen
    obtain ⟨htake, hdrop⟩ := pfx_append_drop hlen hp
    refine hcross t.length hlen ?_ ⟨by rw [htake]; exact ht, hdrop⟩
    cases t with
    | nil => exact absurd rfl htne
    | cons a as => simp

theorem noOcc_append {pat x y : Str} (hx : ¬ Occ pat x) (hy : ¬ Occ pat y)
    (hcross : ∀ k, k < pat.length → 0 < k →
      ¬ ((pat.take k) <:+ x ∧ (pat.drop k) <+: y)) :
    ¬ Occ pat (x ++ y) := by
  rintro ⟨t, ht, hp⟩
  rcases suffix_append_cases ht with h | ⟨t', ht', rfl⟩
  · exact hy ⟨t, h, hp⟩
  · cases t' with
    | nil => exact hy ⟨y, List.suffix_refl y, by simpa using hp⟩
    | cons a as =>
      exact no_pfx_mid hx hcross (a :: as) ht' (by simp) hp

theorem findSplit_append {pat x y : Str}
    (h : ∀ t, t <:+ x → t ≠ [] → ¬ pat <+: (t ++ y)) :
    findSplit (x ++ y) pat = (findSplit y pat).map (fun p => (x ++ p.1, p.2)) := by
  induction x with
  | nil =>
    simp only [List.nil_append]
    cases findSplit y pat with
    | none => simp
    | some p => simp
  | cons c x' ih =>
    have hnb : ¬ begins pat (c :: (x' ++ y)) = true := by
      intro hb
      exact h (c :: x') (List.suffix_refl _) (by simp)
        (by simpa using begins_iff.mp hb)
    rw [List.cons_append, findSplit_cons, if_neg hnb, ih]
    · cases findSplit y pat with
      | none => simp
      | some p => simp
    · intro t ht htne
      exact h t (ht.trans (List.suffix_cons c x')) htne

theorem head?_of_pfx {a y : Str} (h : a <+: y) (ha : a ≠ []) :
    y.head? = a.head? := by
  obtain ⟨t, rfl⟩ := h
  cases a with
  | nil => exact absurd rfl ha
  | cons c cs => simp

theorem getLast?_of_sfx {a x : Str} (h : a <:+ x) (ha : a ≠ []) :
    x.getLast? = a.getLast? := by
  obtain ⟨t, rfl⟩ := h
  rw [List.getLast?_append]
  cases hl : a.getLast? with
  | none =>
    rw [List.getLast?_eq_none_iff] at hl
    exact absurd hl ha
  | some c => simp

theorem cross_kill_head {pat y : Str} {c : Char} (hy : y.head? = some c)
    (hc : ∀ k, k < pat.length → 0 < k → (pat.drop k).head? ≠ some c) :
    ∀ {x : Str}, ∀ k, k < pat.length → 0 < k →
      ¬ ((pat.take k) <:+ x ∧ (pat.drop k) <+: y) := by
  rintro x k hk hpos ⟨_, hdrop⟩
  have hne : pat.drop k ≠ [] := by
    intro hnil
    have := List.drop_eq_nil_iff.mp hnil
    omega
  have := head?_of_pfx hdrop hne
  exact hc k hk hpos (by rw [← this, hy])

theorem cross_kill_last {pat x : Str} {c : Char} (hx : x.getLast? = some c)
    (hc : ∀ k, k < pat.length → 0 < k → (pat.take k).getLast? ≠ some c) :
    ∀ {y : Str}, ∀ k, k < pat.length → 0 < k →
      ¬ ((pat.take k) <:+ x ∧ (pat.drop k) <+: y) := by
  rintro y k hk hpos ⟨htake, _⟩
  have hne : pat.take k ≠ [] := by
    intro hnil
    rcases List.take_eq_nil_iff.mp hnil with h | h
    · omega
    · rw [h] at hk; simp at hk
  have := getLast?_of_sfx htake hne
  exact hc k hk hpos (by rw [← this, hx])


/-!
## Whitespace, trim and line lemmas
-/

theorem dropWhile_cons_false {c : Char} {s : Str} (h : isWSChar c = false) :
    (c :: s).dropWhile isWSChar = c :: s := by
  rw [List.dropWhile_cons, h]
  simp

theorem dropTrail_append_ws {s t : Str} (h : ∀ c ∈ t, isWSChar c = true) :
    dropTrailWS (s ++ t) = dropTrailWS s := by
  unfold dropTrailWS
  rw [List.reverse_append, List.dropWhile_append_of_pos]
  intro c hc
  exact h c (List.mem_reverse.mp hc)

theorem dropTrail_eq_self {s : Str} {a : Char} (hl : s.getLast? = some a)
    (ha : isWSChar a = false) : dropTrailWS s = s := by
  unfold dropTrailWS
  cases hrev : s.reverse with
  | nil =>
    rw [List.reverse_eq_nil_iff] at hrev
    subst hrev
    simp
  | cons c cs =>
    have hc : c = a := by
      have h1 : s.reverse.head? = some a := by rw [List.head?_reverse]; exact hl
      rw [hrev] at h1
      simpa using h1
    subst hc
    rw [List.dropWhile_cons, ha]
    simp only [Bool.false_eq_true, if_false]
    rw [← hrev, List.reverse_reverse]

theorem all_ws_dropTrail_nil {t : Str} (h : ∀ c ∈ t, isWSChar c = true) :
    dropTrailWS t = [] := by
  unfold dropTrailWS
  rw [List.dropWhile_eq_nil_iff.mpr fun c hc => h c (List.mem_reverse.mp hc)]
  rfl

theorem jsTrim_cons_ws {c : Char} {s : Str} (h : isWSChar c = true) :
    jsTrim (c :: s) = jsTrim s := by
  unfold jsTrim
  rw [List.dropWhile_cons, h]
  simp

theorem jsTrim_append_ws {s t : Str} (h : ∀ c ∈ t, isWSChar c = true) :
    jsTrim (s ++ t) = jsTrim s := by
  unfold jsTrim
  rw [List.dropWhile_append]
  by_cases hs : (s.dropWhile isWSChar).isEmpty
  · rw [if_pos hs]
    have h1 : dropTrailWS (t.dropWhile isWSChar) = [] :=
      all_ws_dropTrail_nil fun c hc =>
        h c ((List.dropWhile_suffix isWSChar).subset hc)
    have h2 : dropTrailWS (s.dropWhile isWSChar) = [] := by
      rw [List.isEmpty_iff] at hs
      rw [hs]
      rfl
    rw [h1, h2]
  · rw [if_neg hs, dropTrail_append_ws h]

theorem jsTrim_ws_append {a u : Str} (ha : ∀ c ∈ a, isWSChar c = true) :
    jsTrim (a ++ u) = jsTrim u := by
  unfold jsTrim
  rw [List.dropWhile_append, List.dropWhile_eq_nil_iff.mpr ha]
  simp

theorem jsTrim_length_le (s : Str) : (jsTrim s).length ≤ s.length := by
  unfold jsTrim dropTrailWS
  calc ((s.dropWhile isWSChar).reverse.dropWhile isWSChar).reverse.length
      = ((s.dropWhile isWSChar).reverse.dropWhile isWSChar).length := by simp
    _ ≤ (s.dropWhile isWSChar).reverse.length :=
        (List.dropWhile_suffix _).length_le
    _ = (s.dropWhile isWSChar).length := by simp
    _ ≤ s.length := (List.dropWhile_suffix _).length_le

theorem head_nonws_of_trim_fix {v : Str} (ht : jsTrim v = v) :
    ∀ c, v.head? = some c → isWSChar c = false := by
  intro c hc
  cases v with
  | nil => cases hc
  | cons d rest =>
    have hd : d = c := by simpa using hc
    subst hd
    by_contra hws
    rw [Bool.not_eq_false] at hws
    have h1 := jsTrim_cons_ws (s := rest) hws
    rw [ht] at h1
    have h2 := jsTrim_length_le rest
    rw [← h1] at h2
    simp at h2

theorem getLast_nonws_of_trim_fix {v : Str} (ht : jsTrim v = v) :
    ∀ c, v.getLast? = some c → isWSChar c = false := by
  intro c hc
  obtain ⟨ys, rfl⟩ := List.getLast?_eq_some_iff.mp hc
  by_contra hws
  rw [Bool.not_eq_false] at hws
  have h1 : jsTrim (ys ++ [c]) = jsTrim ys :=
    jsTrim_append_ws fun d hd => by
      rcases List.mem_singleton.mp hd with rfl
      exact hws
  rw [ht] at h1
  have h2 := jsTrim_length_le ys
  rw [← h1] at h2
  simp at h2

theorem takeWhile_all {p : Char → Bool} {l : Str} (h : ∀ c ∈ l, p c = true) :
    l.takeWhile p = l := List.takeWhile_eq_self_iff.mpr h

theorem head?_mem {l : Str} {c : Char} (h : l.head? = some c) : c ∈ l := by
  cases l with
  | nil => cases h
  | cons d rest =>
    have : d = c := by simpa using h
    subst this
    exact List.mem_cons_self _ _

/-!
## splitLines and joinLines lemmas
-/

theorem splitLines_cons_nl (s : Str) : splitLines ('\n' :: s) = [] :: splitLines s := rfl

theorem splitLines_cons_other {c : Char} (s : Str) (h : ¬ c = '\n') :
    splitLines (c :: s) =
      match splitLines s with
      | [] => [[c]]
      | l :: ls => (c :: l) :: ls := by
  have hstep : splitLines (c :: s) =
      if c = '\n' then [] :: splitLines s
      else match splitLines s with
           | [] => [[c]]
           | l :: ls => (c :: l) :: ls := rfl
  rw [hstep, if_neg h]

theorem splitLines_ne_nil (s : Str) : splitLines s ≠ [] := by
  induction s with
  | nil => simp [splitLines]
  | cons c rest ih =>
    by_cases hc : c = '\n'
    · subst hc
      rw [splitLines_cons_nl]
      simp
    · rw [splitLines_cons_other _ hc]
      cases splitLines rest <;> simp

theorem splitLines_append {x y : Str} (h : '\n' ∉ x) :
    splitLines (x ++ y) = (splitLines y).modifyHead (x ++ ·) := by
  induction x with
  | nil =>
    cases hy : splitLines y with
    | nil => exact absurd hy (splitLines_ne_nil y)
    | cons l ls => simp [List.modifyHead, hy]
  | cons c x' ih =>
    have hc : ¬ c = '\n' := fun hh => h (hh ▸ List.mem_cons_self c x')
    rw [List.cons_append, splitLines_cons_other _ hc,
      ih fun hm => h (List.mem_cons_of_mem _ hm)]
    cases hy : splitLines y with
    | nil => exact absurd hy (splitLines_ne_nil y)
    | cons l ls => simp [List.modifyHead]

theorem splitLines_head_pfx {s l : Str} {ls : List Str}
    (h : splitLines s = l :: ls) : ∃ v, s = l ++ v := by
  induction s generalizing l ls with
  | nil =>
    simp only [splitLines] at h
    obtain ⟨rfl, _⟩ := List.cons.injEq _ _ _ _ ▸ h
    exact ⟨[], rfl⟩
  | cons c rest ih =>
    by_cases hc : c = '\n'
    · subst hc
      rw [splitLines_cons_nl] at h
      obtain ⟨rfl, _⟩ := List.cons.injEq _ _ _ _ ▸ h
      exact ⟨'\n' :: rest, rfl⟩
    · rw [splitLines_cons_other _ hc] at h
      cases hr : splitLines rest with
      | nil => exact absurd hr (splitLines_ne_nil rest)
      | cons l0 ls0 =>
        rw [hr] at h
        obtain ⟨h1, _⟩ := List.cons.injEq _ _ _ _ ▸ h
        obtain ⟨v, hv⟩ := ih hr
        exact ⟨v, by rw [← h1, List.cons_append, ← hv]⟩

theorem line_mem_within {s l : Str} (h : l ∈ splitLines s) :
    ∃ u v, s = u ++ l ++ v := by
  induction s generalizing l with
  | nil =>
    simp only [splitLines, List.mem_singleton] at h
    subst h
    exact ⟨[], [], rfl⟩
  | cons c rest ih =>
    by_cases hc : c = '\n'
    · subst hc
      rw [splitLines_cons_nl] at h
      rcases List.mem_cons.mp h with rfl | h'
      · exact ⟨[], '\n' :: rest, rfl⟩
      · obtain ⟨u, v, hv⟩ := ih h'
        exact ⟨'\n' :: u, v, by rw [hv]; rfl⟩
    · rw [splitLines_cons_other _ hc] at h
      cases hr : splitLines rest with
      | nil => exact absurd hr (splitLines_ne_nil rest)
      | cons l0 ls0 =>
        rw [hr] at h
        rcases List.mem_cons.mp h with rfl | h'
        · obtain ⟨v, hv⟩ := splitLines_head_pfx hr
          exact ⟨[], v, by rw [hv]; rfl⟩
        · obtain ⟨u, v, hv⟩ := ih (hr ▸ List.mem_cons_of_mem l0 h')
          exact ⟨c :: u, v, by rw [hv]; rfl⟩

theorem occ_infix_mono {pat l s : Str} (ho : Occ pat l)
    (h : ∃ u v, s = u ++ l ++ v) : Occ pat s := by
  obtain ⟨u, v, rfl⟩ := h
  obtain ⟨a, b, rfl⟩ := occ_decomp.mp ho
  exact occ_decomp.mpr ⟨u ++ a, b ++ v, by simp⟩

theorem noOcc_line {pat s l : Str} (hno : ¬ Occ pat s)
    (h : l ∈ splitLines s) : ¬ Occ pat l :=
  fun ho => hno (occ_infix_mono ho (line_mem_within h))

theorem splitLines_head_takeWhile (s : Str) :
    ∃ ls, splitLines s = (s.takeWhile (fun c => !(c = '\n'))) :: ls := by
  induction s with
  | nil => exact ⟨[], rfl⟩
  | cons c rest ih =>
    by_cases hc : c = '\n'
    · subst hc
      rw [splitLines_cons_nl]
      exact ⟨splitLines rest, by simp [List.takeWhile_cons]⟩
    · obtain ⟨ls, hls⟩ := ih
      rw [splitLines_cons_other _ hc, hls]
      refine ⟨ls, ?_⟩
      rw [List.takeWhile_cons]
      simp [hc]

theorem pfx_takeWhile {p : Char → Bool} {a s : Str} (ha : ∀ c ∈ a, p c = true)
    (h : a <+: s) : a <+: s.takeWhile p := by
  induction a generalizing s with
  | nil => simp
  | cons c cs ih =>
    cases s with
    | nil => simp at h
    | cons d ds =>
      rw [List.cons_prefix_cons] at h
      obtain ⟨rfl, h2⟩ := h
      rw [List.takeWhile_cons, ha c (List.mem_cons_self c cs)]
      simp only [if_true]
      rw [List.cons_prefix_cons]
      exact ⟨rfl, ih (fun e he => ha e (List.mem_cons_of_mem c he)) h2⟩

theorem occ_line_exists {pat s : Str} (hocc : Occ pat s) (hnl : '\n' ∉ pat)
    (hne : pat ≠ []) : ∃ l ∈ splitLines s, Occ pat l := by
  induction s with
  | nil =>
    rw [occ_nil_iff] at hocc
    exact absurd hocc hne
  | cons c rest ih =>
    rcases occ_cons_iff.mp hocc with hp | ho
    · cases pat with
      | nil => exact absurd rfl hne
      | cons p0 ps =>
        rw [List.cons_prefix_cons] at hp
        obtain ⟨rfl, hp2⟩ := hp
        have hc : ¬ p0 = '\n' := fun hh => hnl (hh ▸ List.mem_cons_self p0 ps)
        obtain ⟨ls, hls⟩ := splitLines_head_takeWhile rest
        rw [splitLines_cons_other _ hc, hls]
        refine ⟨p0 :: rest.takeWhile (fun c => !(c = '\n')), List.mem_cons_self _ _, ?_⟩
        apply occ_of_pfx
        rw [List.cons_prefix_cons]
        refine ⟨rfl, pfx_takeWhile ?_ hp2⟩
        intro e he
        simp only [Bool.not_eq_true']
        exact decide_eq_false fun hh => hnl (hh ▸ List.mem_cons_of_mem p0 he)
    · obtain ⟨l, hl, hol⟩ := ih ho
      by_cases hc : c = '\n'
      · subst hc
        rw [splitLines_cons_nl]
        exact ⟨l, List.mem_cons_of_mem _ hl, hol⟩
      · rw [splitLines_cons_other _ hc]
        cases hr : splitLines rest with
        | nil => exact absurd hr (splitLines_ne_nil rest)
        | cons l0 ls0 =>
          rw [hr] at hl
          rcases List.mem_cons.mp hl with rfl | h'
          · exact ⟨c :: l, List.mem_cons_self _ _,
              occ_cons_iff.mpr (Or.inr hol)⟩
          · exact ⟨l, List.mem_cons_of_mem _ h', hol⟩

theorem joinLines_mem_decomp {ls : List Str} {l : Str} (h : l ∈ ls) :
    ∃ u v, joinLines ls = u ++ l ++ v := by
  induction ls with
  | nil => cases h
  | cons a as ih =>
    rcases List.mem_cons.mp h with rfl | h'
    · cases as with
      | nil => exact ⟨[], [], by simp [joinLines]⟩
      | cons b bs => exact ⟨[], '\n' :: joinLines (b :: bs), by simp [joinLines]⟩
    · cases as with
      | nil => cases h'
      | cons b bs =>
        obtain ⟨u, v, he⟩ := ih h'
        refine ⟨a ++ '\n' :: u, v, ?_⟩
        show a ++ '\n' :: joinLines (b :: bs) = _
        rw [he]
        simp

theorem occ_joinLines {pat : Str} {ls : List Str} {l : Str} (h : l ∈ ls)
    (ho : Occ pat l) : Occ pat (joinLines ls) :=
  occ_infix_mono ho (joinLines_mem_decomp h)

theorem noOcc_cons_of_head {pat : Str} {c : Char} {s : Str}
    (hne : pat ≠ []) (hhd : pat.head? ≠ some c) (hs : ¬ Occ pat s) :
    ¬ Occ pat (c :: s) := by
  intro ho
  rcases occ_cons_iff.mp ho with hp | ho'
  · cases pat with
    | nil => exact hne rfl
    | cons p0 ps =>
      rw [List.cons_prefix_cons] at hp
      exact hhd (by rw [hp.1]; rfl)
  · exact hs ho'

theorem noOcc_joinLines {pat : Str} {ls : List Str} (hne : pat ≠ [])
    (hnl : '\n' ∉ pat) (h : ∀ l ∈ ls, ¬ Occ pat l) :
    ¬ Occ pat (joinLines ls) := by
  induction ls with
  | nil =>
    show ¬ Occ pat []
    rw [occ_nil_iff]
    exact hne
  | cons a as ih =>
    cases as with
    | nil => simpa [joinLines] using h a (List.mem_cons_self _ _)
    | cons b bs =>
      show ¬ Occ pat (a ++ '\n' :: joinLines (b :: bs))
      have hy : ¬ Occ pat ('\n' :: joinLines (b :: bs)) := by
        apply noOcc_cons_of_head hne
        · intro hh
          exact hnl (head?_mem hh)
        · exact ih fun l hl => h l (List.mem_cons_of_mem _ hl)
      refine noOcc_append (h a (List.mem_cons_self _ _)) hy ?_
      intro k hk hpos
      refine cross_kill_head
        (show ('\n' :: joinLines (b :: bs)).head? = some '\n' from rfl)
        ?_ k hk hpos
      intro j hj hjpos hdrop
      have : '\n' ∈ pat := (List.drop_subset j pat) (head?_mem hdrop)
      exact hnl this

/-!
## Indentation lemmas
-/

theorem noOcc_spaces {pat : Str} {c : Char} (hp : pat.head? = some c)
    (hc : c ≠ ' ') {x : Str} (hx : ∀ d ∈ x, d = ' ') : ¬ Occ pat x := by
  rintro ⟨t, ht, hpf⟩
  have hpne : pat ≠ [] := fun hh => by rw [hh] at hp; cases hp
  have h1 : t.head? = some c := by rw [head?_of_pfx hpf hpne, hp]
  exact hc (hx c (ht.subset (head?_mem h1)))

theorem cross_kill_spaces {pat : Str} {c : Char} (hp : pat.head? = some c)
    (hc : c ≠ ' ') {x : Str} (hx : ∀ d ∈ x, d = ' ') :
    ∀ {y : Str}, ∀ k, k < pat.length → 0 < k →
      ¬ ((pat.take k) <:+ x ∧ (pat.drop k) <+: y) := by
  rintro y k hk hpos ⟨htake, _⟩
  cases pat with
  | nil => simp at hk
  | cons p0 ps =>
    have hp0 : p0 = c := by simpa using hp
    cases k with
    | zero => omega
    | succ k' =>
      rw [List.take_succ_cons] at htake
      have : p0 ∈ x := htake.subset (List.mem_cons_self _ _)
      exact hc (hp0 ▸ hx p0 this)

theorem noOcc_indentLine {pat l : Str} {c : Char} (hp : pat.head? = some c)
    (hc : c ≠ ' ') (h : ¬ Occ pat l) : ¬ Occ pat (indentLine l) := by
  unfold indentLine
  by_cases hb : (jsTrim l).isEmpty = true
  · rw [if_pos hb]; exact h
  · rw [if_neg hb]
    exact noOcc_append (noOcc_spaces hp hc (by decide)) h
      (cross_kill_spaces hp hc (by decide))

theorem noOcc_indentBody {pat b : Str} {c : Char} (hp : pat.head? = some c)
    (hcsp : c ≠ ' ') (hnl : '\n' ∉ pat) (h : ¬ Occ pat b) :
    ¬ Occ pat (indentBody b) := by
  unfold indentBody
  have hne : pat ≠ [] := fun hh => by rw [hh] at hp; cases hp
  apply noOcc_joinLines hne hnl
  intro l hl
  obtain ⟨l', hl', rfl⟩ := List.mem_map.mp hl
  exact noOcc_indentLine hp hcsp (noOcc_line h hl')

theorem occ_indentLine {pat l : Str} (h : Occ pat l) : Occ pat (indentLine l) := by
  unfold indentLine
  by_cases hb : (jsTrim l).isEmpty = true
  · rw [if_pos hb]; exact h
  · rw [if_neg hb]
    obtain ⟨u, v, rfl⟩ := occ_decomp.mp h
    exact occ_decomp.mpr ⟨str "    " ++ u, v, by simp⟩

theorem occ_indentBody {pat b : Str} (hnl : '\n' ∉ pat) (hne : pat ≠ [])
    (h : Occ pat b) : Occ pat (indentBody b) := by
  obtain ⟨l, hl, hol⟩ := occ_line_exists h hnl hne
  exact occ_joinLines (List.mem_map_of_mem _ hl) (occ_indentLine hol)

/-!
## Occurrence preservation through trimming
-/

theorem occ_dropWhile_ws {pat s : Str} {c : Char} (hp : pat.head? = some c)
    (hc : isWSChar c = false) (h : Occ pat s) :
    Occ pat (s.dropWhile isWSChar) := by
  induction s with
  | nil =>
    rw [occ_nil_iff] at h
    subst h
    cases hp
  | cons d rest ih =>
    rcases occ_cons_iff.mp h with hpf | ho
    · have hpne : pat ≠ [] := fun hh => by rw [hh] at hp; cases hp
      have h1 : (d :: rest).head? = pat.head? := head?_of_pfx hpf hpne
      have hd : d = c := by
        rw [hp] at h1
        simpa using h1
      subst hd
      rw [dropWhile_cons_false hc]
      exact occ_of_pfx hpf
    · rw [List.dropWhile_cons]
      by_cases hd : isWSChar d = true
      · rw [hd]
        simpa using ih ho
      · rw [Bool.not_eq_true] at hd
        rw [hd]
        simp only [Bool.false_eq_true, if_false]
        exact occ_cons_iff.mpr (Or.inr ho)

theorem occ_reverse_iff {pat s : Str} :
    Occ pat.reverse s.reverse ↔ Occ pat s := by
  rw [occ_decomp, occ_decomp]
  constructor
  · rintro ⟨u, v, he⟩
    refine ⟨v.reverse, u.reverse, ?_⟩
    have := congrArg List.reverse he
    simpa using this
  · rintro ⟨u, v, rfl⟩
    exact ⟨v.reverse, u.reverse, by simp⟩

theorem occ_dropTrail {pat s : Str} {c : Char} (hp : pat.getLast? = some c)
    (hc : isWSChar c = false) (h : Occ pat s) : Occ pat (dropTrailWS s) := by
  unfold dropTrailWS
  rw [← occ_reverse_iff, List.reverse_reverse]
  apply occ_dropWhile_ws (c := c)
  · rw [List.head?_reverse]
    exact hp
  · exact hc
  · rw [occ_reverse_iff]
    exact h

theorem occ_jsTrim {pat s : Str} {c d : Char} (hph : pat.head? = some c)
    (hch : isWSChar c = false) (hpl : pat.getLast? = some d)
    (hcl : isWSChar d = false) (h : Occ pat s) : Occ pat (jsTrim s) :=
  occ_dropTrail hpl hcl (occ_dropWhile_ws hph hch h)

/-!
## Tag-scan lemmas
-/

theorem tagCapture_cons (tag : Str) (c : Char) (rest : Str) :
    tagCapture tag (c :: rest) =
      if begins tag (c :: rest) then
        match tagAfter ((c :: rest).drop tag.length) with
        | some cap => some cap
        | none => tagCapture tag rest
      else tagCapture tag rest := rfl

theorem tagCapture_none {tag line : Str} (h : ¬ Occ tag line) :
    tagCapture tag line = none := by
  induction line with
  | nil => rfl
  | cons c rest ih =>
    rw [tagCapture_cons]
    have hb : ¬ begins tag (c :: rest) = true := fun hb =>
      h (occ_of_pfx (begins_iff.mp hb))
    rw [if_neg hb]
    exact ih fun ho => h (occ_cons_iff.mpr (Or.inr ho))

theorem tagCapture_skip {tag : Str} {a : Char} (ht : tag.head? = some a)
    {pre : Str} (hpre : ∀ c ∈ pre, ¬ c = a) (s : Str) :
    tagCapture tag (pre ++ s) = tagCapture tag s := by
  induction pre with
  | nil => rfl
  | cons c p' ih =>
    rw [List.cons_append, tagCapture_cons]
    have hb : ¬ begins tag (c :: (p' ++ s)) = true := by
      intro hb
      have hpf := begins_iff.mp hb
      cases tag with
      | nil => cases ht
      | cons t0 ts =>
        rw [List.cons_prefix_cons] at hpf
        have : t0 = a := by simpa using ht
        exact hpre c (List.mem_cons_self _ _) (by rw [← hpf.1, this])
    rw [if_neg hb]
    exact ih fun c' hc' => hpre c' (List.mem_cons_of_mem _ hc')

theorem tagAfter_single_ws {val : Str} {v0 : Char} (hh : val.head? = some v0)
    (hnws : isWSChar v0 = false) (hdot : ∀ c ∈ val, dotChar c = true) :
    tagAfter (' ' :: val) = some val := by
  cases val with
  | nil => cases hh
  | cons c cs =>
    have hc : c = v0 := by simpa using hh
    rw [← hc] at hnws
    unfold tagAfter
    have htw : (' ' :: c :: cs).takeWhile isWSChar = [' '] := by
      rw [List.takeWhile_cons]
      simp only [show isWSChar ' ' = true from by decide, if_true]
      rw [List.takeWhile_cons, hnws]
      rfl
    rw [htw]
    have hstep : tagTryW (' ' :: c :: cs) 1 =
        if dotChar c then some ((c :: cs).takeWhile dotChar)
        else tagTryW (' ' :: c :: cs) 0 := rfl
    show tagTryW (' ' :: c :: cs) 1 = some (c :: cs)
    rw [hstep, hdot c (List.mem_cons_self _ _)]
    simp only [if_true]
    rw [takeWhile_all hdot]

theorem begins_append_self (pat r : Str) : begins pat (pat ++ r) = true :=
  begins_iff.mpr ⟨r, rfl⟩

/-!
## Legacy-regex absence
-/

theorem legacyTryHead_occ {s : Str} (h : (legacyTryHead s).isSome = true) :
    Occ (str "flows.json ") s := by
  unfold legacyTryHead at h
  by_cases h1 : begins (str "/*") s = true
  · rw [if_pos h1] at h
    by_cases h2 : begins (str "flows.json ") ((s.drop 2).dropWhile isWSChar) = true
    · have hsfx : (s.drop 2).dropWhile isWSChar <:+ s :=
        (List.dropWhile_suffix _).trans (List.drop_suffix 2 s)
      exact ⟨_, hsfx, begins_iff.mp h2⟩
    · rw [if_neg h2] at h
      cases h
  · rw [if_neg h1] at h
    cases h

theorem legacyFind_cons (c : Char) (rest : Str) :
    legacyFind (c :: rest) =
      match legacyTryHead (c :: rest) with
      | some (cap, after) => some ([], cap, after)
      | none => (legacyFind rest).map (fun p => (c :: p.1, p.2.1, p.2.2)) := rfl

theorem legacyFind_none {s : Str} (h : ¬ Occ (str "flows.json ") s) :
    legacyFind s = none := by
  induction s with
  | nil => rfl
  | cons c rest ih =>
    rw [legacyFind_cons]
    cases hq : legacyTryHead (c :: rest) with
    | some p => exact absurd (legacyTryHead_occ (by rw [hq]; rfl)) h
    | none =>
      rw [ih fun ho => h (occ_cons_iff.mpr (Or.inr ho))]
      rfl


/-!
## Generic helpers for the composite lemmas
-/

theorem noOcc_of_hasSubB {s pat : Str} (h : hasSubB s pat = false) :
    ¬ Occ pat s := hasSubB_false_iff.mp h

theorem nl_not_mem_of_dot {v : Str} (h : ∀ c ∈ v, dotChar c = true) :
    '\n' ∉ v := by
  intro hm
  have := h '\n' hm
  simp [dotChar] at this

theorem dropWhile_eq_self_of_head {p : Char → Bool} {s : Str} {c : Char}
    (h : s.head? = some c) (hc : p c = false) : s.dropWhile p = s := by
  cases s with
  | nil => cases h
  | cons d rest =>
    have : d = c := by simpa using h
    subst this
    rw [List.dropWhile_cons, hc]
    simp

theorem findSplit_self {pat r : Str} (hp : pat ≠ []) :
    findSplit (pat ++ r) pat = some ([], pat ++ r) := by
  cases pat with
  | nil => exact absurd rfl hp
  | cons c cs =>
    rw [List.cons_append, findSplit_cons,
      if_pos (begins_iff.mpr ⟨r, by simp⟩)]

/-- The first doc comment of `X ++ "/**" ++ C ++ "*/" ++ Y` is the
exhibited one whenever `X` has no `/**` and `C` no `*/`: the crossing
cases die on the seam characters. -/
theorem jsdocParts_generic {X C Y : Str} (hX : ¬ Occ (str "/**") X)
    (hC : ¬ Occ (str "*/") C) :
    jsdocParts (X ++ str "/**" ++ C ++ str "*/" ++ Y) =
      some (X, C.dropWhile isWSChar, Y) := by
  have hassoc : X ++ str "/**" ++ C ++ str "*/" ++ Y
      = X ++ (str "/**" ++ (C ++ (str "*/" ++ Y))) := by
    simp [List.append_assoc]
  rw [hassoc]
  have h1 : findSplit (X ++ (str "/**" ++ (C ++ (str "*/" ++ Y)))) (str "/**")
      = some (X, str "/**" ++ (C ++ (str "*/" ++ Y))) := by
    rw [findSplit_append (no_pfx_mid hX (fun k hk hpos =>
      cross_kill_head
        (show (str "/**" ++ (C ++ (str "*/" ++ Y))).head? = some '/' from rfl)
        (by decide) k hk hpos))]
    rw [findSplit_self (by decide)]
    simp
  have h2 : findSplit (C ++ (str "*/" ++ Y)) (str "*/")
      = some (C, str "*/" ++ Y) := by
    rw [findSplit_append (no_pfx_mid hC (fun k hk hpos =>
      cross_kill_head
        (show (str "*/" ++ Y).head? = some '*' from rfl)
        (by decide) k hk hpos))]
    rw [findSplit_self (by decide)]
    simp
  have hdrop3 : (str "/**" ++ (C ++ (str "*/" ++ Y))).drop 3
      = C ++ (str "*/" ++ Y) := rfl
  have hdrop2 : (str "*/" ++ Y).drop 2 = Y := rfl
  simp only [jsdocParts, h1, hdrop3, h2, hdrop2]

/-- No `*/` occurs in a well-formed tags block whose values carry none. -/
theorem noOcc_starSlash_tags {id name z : Str} (hid : ¬ Occ (str "*/") id)
    (hname : ¬ Occ (str "*/") name) (hz : ¬ Occ (str "*/") z) :
    ¬ Occ (str "*/") (tagsBlock id name z) := by
  unfold tagsBlock
  have k1 : ∀ k, k < (str "*/").length → 0 < k →
      ((str "*/").take k).getLast? ≠ some ' ' := by decide
  have k2 : ∀ k, k < (str "*/").length → 0 < k →
      ((str "*/").drop k).head? ≠ some '\n' := by decide
  have h1 : ¬ Occ (str "*/") (str "\n * @nr-id " ++ id) :=
    noOcc_append (noOcc_of_hasSubB (by decide)) hid
      (cross_kill_last (by decide) k1)
  have h2 : ¬ Occ (str "*/") (str "\n * @nr-id " ++ id ++ str "\n * @nr-name ") :=
    noOcc_append h1 (noOcc_of_hasSubB (by decide))
      (cross_kill_head (show (str "\n * @nr-name ").head? = some '\n' from rfl) k2)
  have h3 : ¬ Occ (str "*/")
      (str "\n * @nr-id " ++ id ++ str "\n * @nr-name " ++ name) := by
    refine noOcc_append h2 hname (cross_kill_last ?_ k1)
    rw [List.getLast?_append]
    rfl
  have h4 : ¬ Occ (str "*/")
      (str "\n * @nr-id " ++ id ++ str "\n * @nr-name " ++ name
        ++ str "\n * @nr-z ") :=
    noOcc_append h3 (noOcc_of_hasSubB (by decide))
      (cross_kill_head (show (str "\n * @nr-z ").head? = some '\n' from rfl) k2)
  have h5 : ¬ Occ (str "*/")
      (str "\n * @nr-id " ++ id ++ str "\n * @nr-name " ++ name
        ++ str "\n * @nr-z " ++ z) := by
    refine noOcc_append h4 hz (cross_kill_last ?_ k1)
    rw [List.getLast?_append]
    rfl
  exact noOcc_append h5 (noOcc_of_hasSubB (by decide))
    (cross_kill_head (show (str "\n ").head? = some '\n' from rfl) k2)

/-- The capture produced by the canonical tags block. -/
theorem tags_capture (id name z : Str) :
    (tagsBlock id name z).dropWhile isWSChar
      = str "* @nr-id " ++ id ++ str "\n * @nr-name " ++ name
          ++ str "\n * @nr-z " ++ z ++ str "\n " := by
  unfold tagsBlock
  simp only [List.append_assoc]
  rfl

/-- The capture's lines, when the values are newline-free. -/
theorem splitLines_cap {id name z : Str} (hidn : '\n' ∉ id)
    (hnamen : '\n' ∉ name) (hzn : '\n' ∉ z) :
    splitLines (str "* @nr-id " ++ id ++ str "\n * @nr-name " ++ name
        ++ str "\n * @nr-z " ++ z ++ str "\n ")
      = [str "* @nr-id " ++ id, str " * @nr-name " ++ name,
         str " * @nr-z " ++ z, str " "] := by
  have e1 : str "* @nr-id " ++ id ++ str "\n * @nr-name " ++ name
      ++ str "\n * @nr-z " ++ z ++ str "\n "
      = (str "* @nr-id " ++ id) ++ ('\n' ::
          (str " * @nr-name " ++ name ++ str "\n * @nr-z " ++ z ++ str "\n ")) := by
    simp only [List.append_assoc]
    rfl
  have hx1 : '\n' ∉ str "* @nr-id " ++ id := by
    intro hm
    rcases List.mem_append.mp hm with h | h
    · revert h; decide
    · exact hidn h
  rw [e1, splitLines_append hx1, splitLines_cons_nl]
  have e2 : str " * @nr-name " ++ name ++ str "\n * @nr-z " ++ z ++ str "\n "
      = (str " * @nr-name " ++ name) ++ ('\n' ::
          (str " * @nr-z " ++ z ++ str "\n ")) := by
    simp only [List.append_assoc]
    rfl
  have hx2 : '\n' ∉ str " * @nr-name " ++ name := by
    intro hm
    rcases List.mem_append.mp hm with h | h
    · revert h; decide
    · exact hnamen h
  rw [e2, splitLines_append hx2, splitLines_cons_nl]
  have e3 : str " * @nr-z " ++ z ++ str "\n "
      = (str " * @nr-z " ++ z) ++ ('\n' :: str " ") := by
    simp only [List.append_assoc]
    rfl
  have hx3 : '\n' ∉ str " * @nr-z " ++ z := by
    intro hm
    rcases List.mem_append.mp hm with h | h
    · revert h; decide
    · exact hzn h
  rw [e3, splitLines_append hx3, splitLines_cons_nl]
  simp only [List.modifyHead, List.append_nil]
  rfl

/-!
## Per-line tag captures
-/

theorem tag_line_capture {tag pre val : Str} (hpre : ∀ c ∈ pre, ¬ c = '@')
    (htag : tag.head? = some '@') (hne : val ≠ [])
    (hdot : ∀ c ∈ val, dotChar c = true) (htrim : jsTrim val = val) :
    tagCapture tag (pre ++ (tag ++ (' ' :: val))) = some val := by
  rw [tagCapture_skip htag hpre]
  cases tag with
  | nil => cases htag
  | cons t0 ts =>
    cases val with
    | nil => exact absurd rfl hne
    | cons v0 vs =>
      have hv0 : isWSChar v0 = false := head_nonws_of_trim_fix htrim v0 rfl
      have hafter : tagAfter ((t0 :: (ts ++ (' ' :: v0 :: vs))).drop (t0 :: ts).length)
          = some (v0 :: vs) := by
        have hd : (t0 :: (ts ++ (' ' :: v0 :: vs))).drop (t0 :: ts).length
            = ' ' :: v0 :: vs := by
          rw [← List.cons_append, List.drop_left]
        rw [hd]
        exact tagAfter_single_ws rfl hv0 hdot
      have hb : begins (t0 :: ts) (t0 :: (ts ++ (' ' :: v0 :: vs))) = true := by
        rw [← List.cons_append]
        exact begins_append_self _ _
      rw [List.cons_append, tagCapture_cons, if_pos hb, hafter]

theorem idLine_capture {id : Str} (hne : id ≠ [])
    (hdot : ∀ c ∈ id, dotChar c = true) (htrim : jsTrim id = id) :
    tagCapture (str "@nr-id") (str "* @nr-id " ++ id) = some id := by
  have he : str "* @nr-id " ++ id = str "* " ++ (str "@nr-id" ++ (' ' :: id)) := rfl
  rw [he]
  exact tag_line_capture (by decide) rfl hne hdot htrim

theorem nameLine_capture {name : Str} (hne : name ≠ [])
    (hdot : ∀ c ∈ name, dotChar c = true) (htrim : jsTrim name = name) :
    tagCapture (str "@nr-name") (str " * @nr-name " ++ name) = some name := by
  have he : str " * @nr-name " ++ name
      = str " * " ++ (str "@nr-name" ++ (' ' :: name)) := rfl
  rw [he]
  exact tag_line_capture (by decide) rfl hne hdot htrim

theorem zLine_capture {z : Str} (hne : z ≠ [])
    (hdot : ∀ c ∈ z, dotChar c = true) (htrim : jsTrim z = z) :
    tagCapture (str "@nr-z") (str " * @nr-z " ++ z) = some z := by
  have he : str " * @nr-z " ++ z = str " * " ++ (str "@nr-z" ++ (' ' :: z)) := rfl
  rw [he]
  exact tag_line_capture (by decide) rfl hne hdot htrim

theorem tagCapture_none_append {tag lit v : Str} {c : Char}
    (hlit : hasSubB lit tag = false) (hv : ¬ Occ tag v)
    (hlast : lit.getLast? = some c)
    (hc : ∀ k, k < tag.length → 0 < k → (tag.take k).getLast? ≠ some c) :
    tagCapture tag (lit ++ v) = none :=
  tagCapture_none
    (noOcc_append (noOcc_of_hasSubB hlit) hv (cross_kill_last hlast hc))

/-!
## The structured-decode computation
-/

theorem applyLine_id (m : PartialMeta) (l : Str) :
    (applyLine m l).id =
      match tagCapture (str "@nr-id") l with
      | some v => some (jsTrim v)
      | none => m.id := by
  unfold applyLine
  cases tagCapture (str "@nr-id") l <;> cases tagCapture (str "@nr-name") l <;>
    cases tagCapture (str "@nr-z") l <;> rfl

theorem applyLine_name (m : PartialMeta) (l : Str) :
    (applyLine m l).name =
      match tagCapture (str "@nr-name") l with
      | some v => some (jsTrim v)
      | none => m.name := by
  unfold applyLine
  cases tagCapture (str "@nr-id") l <;> cases tagCapture (str "@nr-name") l <;>
    cases tagCapture (str "@nr-z") l <;> rfl

theorem applyLine_z (m : PartialMeta) (l : Str) :
    (applyLine m l).z =
      match tagCapture (str "@nr-z") l with
      | some v => some (jsTrim v)
      | none => m.z := by
  unfold applyLine
  cases tagCapture (str "@nr-id") l <;> cases tagCapture (str "@nr-name") l <;>
    cases tagCapture (str "@nr-z") l <;> rfl

theorem fold_id_none {lines : List Str}
    (h : ∀ l ∈ lines, tagCapture (str "@nr-id") l = none)
    (m : PartialMeta) (hm : m.id = none) :
    (lines.foldl applyLine m).id = none := by
  induction lines generalizing m with
  | nil => exact hm
  | cons l ls ih =>
    rw [List.foldl_cons]
    refine ih (fun l' hl' => h l' (List.mem_cons_of_mem _ hl')) _ ?_
    rw [applyLine_id, h l (List.mem_cons_self _ _), hm]


theorem fold_tags_id_z {id name z : Str}
    (hid1 : id ≠ []) (hid2 : ∀ c ∈ id, dotChar c = true) (hid3 : jsTrim id = id)
    (hnameid : ¬ Occ (str "@nr-id") name)
    (hz1 : z ≠ []) (hz2 : ∀ c ∈ z, dotChar c = true) (hz3 : jsTrim z = z)
    (hzid : ¬ Occ (str "@nr-id") z) :
    (([str "* @nr-id " ++ id, str " * @nr-name " ++ name,
       str " * @nr-z " ++ z, str " "].foldl applyLine {}).id = some id ∧
     ([str "* @nr-id " ++ id, str " * @nr-name " ++ name,
       str " * @nr-z " ++ z, str " "].foldl applyLine {}).z = some z) := by
  have hcid : ∀ k, k < (str "@nr-id").length → 0 < k →
      ((str "@nr-id").take k).getLast? ≠ some ' ' := by decide
  have hczn : ∀ k, k < (str "@nr-z").length → 0 < k →
      ((str "@nr-z").take k).getLast? ≠ some ' ' := by decide
  have hidL2 : tagCapture (str "@nr-id") (str " * @nr-name " ++ name) = none :=
    tagCapture_none_append (by decide) hnameid (by decide) hcid
  have hidL3 : tagCapture (str "@nr-id") (str " * @nr-z " ++ z) = none :=
    tagCapture_none_append (by decide) hzid (by decide) hcid
  have hidL4 : tagCapture (str "@nr-id") (str " ") = none := by decide
  have hzL4 : tagCapture (str "@nr-z") (str " ") = none := by decide
  simp only [List.foldl_cons, List.foldl_nil]
  constructor
  · rw [applyLine_id, hidL4, applyLine_id, hidL3, applyLine_id, hidL2,
      applyLine_id, idLine_capture hid1 hid2 hid3]
    show some (jsTrim id) = some id
    rw [hid3]
  · rw [applyLine_z, hzL4, applyLine_z, zLine_capture hz1 hz2 hz3]
    show some (jsTrim z) = some z
    rw [hz3]

theorem fold_tags_name {id name z : Str}
    (hname1 : name ≠ []) (hname2 : ∀ c ∈ name, dotChar c = true)
    (hname3 : jsTrim name = name) (hznm : ¬ Occ (str "@nr-name") z) :
    ([str "* @nr-id " ++ id, str " * @nr-name " ++ name,
      str " * @nr-z " ++ z, str " "].foldl applyLine {}).name = some name := by
  have hcnm : ∀ k, k < (str "@nr-name").length → 0 < k →
      ((str "@nr-name").take k).getLast? ≠ some ' ' := by decide
  have hnmL3 : tagCapture (str "@nr-name") (str " * @nr-z " ++ z) = none :=
    tagCapture_none_append (by decide) hznm (by decide) hcnm
  have hnmL4 : tagCapture (str "@nr-name") (str " ") = none := by decide
  simp only [List.foldl_cons, List.foldl_nil]
  rw [applyLine_name, hnmL4, applyLine_name, hnmL3, applyLine_name,
    nameLine_capture hname1 hname2 hname3]
  show some (jsTrim name) = some name
  rw [hname3]

/-- Structured decode of a file whose first doc comment is the canonical
tags block: the decoded `id` and `z` are the block's values. -/
theorem getMetadata_structured {A id name z B : Str}
    (hA : ¬ Occ (str "/**") A)
    (hid1 : id ≠ []) (hid2 : ∀ c ∈ id, dotChar c = true) (hid3 : jsTrim id = id)
    (hid4 : ¬ Occ (str "*/") id)
    (hname2 : ∀ c ∈ name, dotChar c = true) (hname4 : ¬ Occ (str "*/") name)
    (hnameid : ¬ Occ (str "@nr-id") name)
    (hz1 : z ≠ []) (hz2 : ∀ c ∈ z, dotChar c = true) (hz3 : jsTrim z = z)
    (hz4 : ¬ Occ (str "*/") z) (hzid : ¬ Occ (str "@nr-id") z) :
    ∃ nm, getMetadata (A ++ str "/**" ++ tagsBlock id name z ++ str "*/" ++ B)
      = some ⟨some (.jstr id), nm, .jstr z⟩ := by
  have hjs := jsdocParts_generic (C := tagsBlock id name z) (X := A) (Y := B) hA
    (noOcc_starSlash_tags hid4 hname4 hz4)
  rw [tags_capture] at hjs
  have hlines := splitLines_cap (nl_not_mem_of_dot hid2)
    (nl_not_mem_of_dot hname2) (nl_not_mem_of_dot hz2)
  obtain ⟨hpmid, hpmz⟩ := fold_tags_id_z hid1 hid2 hid3 hnameid hz1 hz2 hz3 hzid
  refine ⟨(([str "* @nr-id " ++ id, str " * @nr-name " ++ name,
      str " * @nr-z " ++ z, str " "].foldl applyLine {}).name).map JVal.jstr, ?_⟩
  simp only [getMetadata, hjs]
  have hcap : (str "* @nr-id " ++ id ++ str "\n * @nr-name " ++ name
      ++ str "\n * @nr-z " ++ z ++ str "\n ").isEmpty = false := by
    simp only [List.append_assoc]
    rfl
  rw [hcap]
  simp only [Bool.false_eq_true, if_false, hlines, hpmid, hpmz]
  have : (!id.isEmpty && !z.isEmpty) = true := by
    cases id with
    | nil => exact absurd rfl hid1
    | cons a as =>
      cases z with
      | nil => exact absurd rfl hz1
      | cons b bs => rfl
  rw [this]
  simp

/-- Structured decode with the name value as well (for the precedence
claim). -/
theorem getMetadata_structured_full {A id name z B : Str}
    (hA : ¬ Occ (str "/**") A)
    (hid1 : id ≠ []) (hid2 : ∀ c ∈ id, dotChar c = true) (hid3 : jsTrim id = id)
    (hid4 : ¬ Occ (str "*/") id)
    (hname1 : name ≠ []) (hname2 : ∀ c ∈ name, dotChar c = true)
    (hname3 : jsTrim name = name) (hname4 : ¬ Occ (str "*/") name)
    (hnameid : ¬ Occ (str "@nr-id") name)
    (hz1 : z ≠ []) (hz2 : ∀ c ∈ z, dotChar c = true) (hz3 : jsTrim z = z)
    (hz4 : ¬ Occ (str "*/") z) (hzid : ¬ Occ (str "@nr-id") z)
    (hznm : ¬ Occ (str "@nr-name") z) :
    getMetadata (A ++ str "/**" ++ tagsBlock id name z ++ str "*/" ++ B)
      = some ⟨some (.jstr id), some (.jstr name), .jstr z⟩ := by
  have hjs := jsdocParts_generic (C := tagsBlock id name z) (X := A) (Y := B) hA
    (noOcc_starSlash_tags hid4 hname4 hz4)
  rw [tags_capture] at hjs
  have hlines := splitLines_cap (nl_not_mem_of_dot hid2)
    (nl_not_mem_of_dot hname2) (nl_not_mem_of_dot hz2)
  obtain ⟨hpmid, hpmz⟩ := fold_tags_id_z hid1 hid2 hid3 hnameid hz1 hz2 hz3 hzid
  have hpmnm := @fold_tags_name id name z hname1 hname2 hname3 hznm
  simp only [getMetadata, hjs]
  have hcap : (str "* @nr-id " ++ id ++ str "\n * @nr-name " ++ name
      ++ str "\n * @nr-z " ++ z ++ str "\n ").isEmpty = false := by
    simp only [List.append_assoc]
    rfl
  rw [hcap]
  simp only [Bool.false_eq_true, if_false, hlines, hpmid, hpmz, hpmnm]
  have : (!id.isEmpty && !z.isEmpty) = true := by
    cases id with
    | nil => exact absurd rfl hid1
    | cons a as =>
      cases z with
      | nil => exact absurd rfl hz1
      | cons b bs => rfl
  rw [this]
  simp

/-- When the first doc comment carries no `@nr-id` tag, `getMetadata`
falls through to the legacy decode, whatever else the file contains. -/
theorem getMetadata_first_comment {X C Y : Str} (hX : ¬ Occ (str "/**") X)
    (hC : ¬ Occ (str "*/") C) (hCid : ¬ Occ (str "@nr-id") C) :
    getMetadata (X ++ str "/**" ++ C ++ str "*/" ++ Y)
      = getMetadataLegacy (X ++ str "/**" ++ C ++ str "*/" ++ Y) := by
  have hjs := jsdocParts_generic (X := X) (C := C) (Y := Y) hX hC
  simp only [getMetadata, hjs]
  by_cases hcap : (C.dropWhile isWSChar).isEmpty = true
  · rw [hcap]
    simp
  · rw [Bool.not_eq_true] at hcap
    rw [hcap]
    simp only [Bool.false_eq_true, if_false]
    have hid : ((splitLines (C.dropWhile isWSChar)).foldl applyLine {}).id = none := by
      apply fold_id_none
      · intro l hl
        apply tagCapture_none
        apply noOcc_line _ hl
        intro ho
        exact hCid (occ_suffix_mono (List.dropWhile_suffix isWSChar) ho)
      · rfl
    rw [hid]

/-!
## The wrapped file's shape
-/

theorem wrap_eq (id name b z : Str) :
    wrapScriptContent id name b z =
      hdrP ++ indentBody b ++ sepMid ++ str "/**" ++ tagsBlock id name z
        ++ str "*/" ++ str "\n" := by
  unfold wrapScriptContent
  have hW : str "module.exports = function (msg, flow, env, node, global, context) \x7b\n"
      ++ indentBody b
      ++ str "\n\x7d;\n\n/**\n * @nr-id " ++ id
      ++ str "\n * @nr-name " ++ name
      ++ str "\n * @nr-z " ++ z
      ++ str "\n */\n"
      = (hdrP ++ indentBody b ++ sepMid ++ str "/**" ++ tagsBlock id name z
          ++ str "*/") ++ str "\n" := by
    simp only [hdrP, sepMid, tagsBlock, List.append_assoc]
    rfl
  rw [hW]
  unfold jsTrim
  have h1 : ((hdrP ++ indentBody b ++ sepMid ++ str "/**" ++ tagsBlock id name z
      ++ str "*/") ++ str "\n").dropWhile isWSChar
      = (hdrP ++ indentBody b ++ sepMid ++ str "/**" ++ tagsBlock id name z
      ++ str "*/") ++ str "\n" := by
    apply dropWhile_eq_self_of_head (c := 'm')
    · simp only [hdrP, List.append_assoc]
      rfl
    · decide
  have h3 : (hdrP ++ indentBody b ++ sepMid ++ str "/**" ++ tagsBlock id name z
      ++ str "*/").getLast? = some '/' := by
    rw [List.getLast?_append]
    rfl
  rw [h1, dropTrail_append_ws (by decide), dropTrail_eq_self h3 (by decide)]
  rfl


/-!
## The unwrap pipeline on a wrapped file
-/

theorem noOcc_jsdoc_head {b : Str} (hb1 : ¬ Occ (str "/**") b) :
    ¬ Occ (str "/**") (hdrP ++ indentBody b ++ sepMid) := by
  have hIno : ¬ Occ (str "/**") (indentBody b) :=
    noOcc_indentBody (c := '/') rfl (by decide) (by decide) hb1
  apply noOcc_append
  · exact noOcc_append (noOcc_of_hasSubB (by decide)) hIno
      (cross_kill_last (show hdrP.getLast? = some '\n' from rfl) (by decide))
  · exact noOcc_of_hasSubB (by decide)
  · exact cross_kill_head (show sepMid.head? = some '\n' from rfl) (by decide)

theorem noOcc_flows_c1 {b : Str} (hb2 : ¬ Occ (str "flows.json ") b) :
    ¬ Occ (str "flows.json ") ((hdrP ++ indentBody b ++ sepMid) ++ str "\n") := by
  have hIno : ¬ Occ (str "flows.json ") (indentBody b) :=
    noOcc_indentBody (c := 'f') rfl (by decide) (by decide) hb2
  apply noOcc_append
  · apply noOcc_append
    · exact noOcc_append (noOcc_of_hasSubB (by decide)) hIno
        (cross_kill_last (show hdrP.getLast? = some '\n' from rfl) (by decide))
    · exact noOcc_of_hasSubB (by decide)
    · exact cross_kill_head (show sepMid.head? = some '\n' from rfl) (by decide)
  · exact noOcc_of_hasSubB (by decide)
  · exact cross_kill_head (show (str "\n").head? = some '\n' from rfl) (by decide)

theorem wrapperTry_hdrP (R : Str) :
    wrapperTry (hdrP ++ R) = some ('\n' :: R) := rfl

theorem findWrapperRem_hdrP (R : Str) :
    findWrapperRem (hdrP ++ R) = some ('\n' :: R) := rfl

/-- `prepareScriptContent` inverts `wrapScriptContent` up to the
reindentation: the result is the trimmed four-space-indented body. -/
theorem prepare_wrap_eq {id name b z : Str}
    (hid : ¬ Occ (str "*/") id) (hname : ¬ Occ (str "*/") name)
    (hz : ¬ Occ (str "*/") z)
    (hb1 : ¬ Occ (str "/**") b) (hb2 : ¬ Occ (str "flows.json ") b) :
    prepareScriptContent (wrapScriptContent id name b z)
      = jsTrim (indentBody b) := by
  rw [wrap_eq]
  have hjs := jsdocParts_generic (X := hdrP ++ indentBody b ++ sepMid)
    (C := tagsBlock id name z) (Y := str "\n") (noOcc_jsdoc_head hb1)
    (noOcc_starSlash_tags hid hname hz)
  have hleg := legacyFind_none (noOcc_flows_c1 hb2)
  have hct : jsTrim ((hdrP ++ indentBody b ++ sepMid) ++ str "\n")
      = hdrP ++ indentBody b ++ str "\n\x7d;" := by
    have e1 : (hdrP ++ indentBody b ++ sepMid) ++ str "\n"
        = (hdrP ++ indentBody b ++ str "\n\x7d;") ++ str "\n\n\n" := by
      simp only [sepMid, List.append_assoc]
      rfl
    rw [e1, jsTrim_append_ws (by decide)]
    unfold jsTrim
    have h1 : (hdrP ++ indentBody b ++ str "\n\x7d;").dropWhile isWSChar
        = hdrP ++ indentBody b ++ str "\n\x7d;" := by
      apply dropWhile_eq_self_of_head (c := 'm')
      · simp only [hdrP, List.append_assoc]
        rfl
      · decide
    rw [h1]
    apply dropTrail_eq_self (a := ';')
    · rw [List.getLast?_append]
      rfl
    · decide
  have hfw : findWrapperRem (hdrP ++ indentBody b ++ str "\n\x7d;")
      = some ('\n' :: (indentBody b ++ str "\n\x7d;")) := by
    rw [List.append_assoc]
    exact findWrapperRem_hdrP _
  have hcut : cutAtLast ('\n' :: (indentBody b ++ str "\n\x7d;")) (str "\x7d;")
      = some ('\n' :: (indentBody b ++ str "\n")) := by
    have e2 : ('\n' :: (indentBody b ++ str "\n\x7d;"))
        = ('\n' :: (indentBody b ++ str "\n")) ++ str "\x7d;" := by
      simp only [List.cons_append, List.append_assoc]
      rfl
    rw [e2]
    exact cutAtLast_append_self (by decide)
  simp only [prepareScriptContent, hjs, hleg, hct, hfw, hcut]
  rw [jsTrim_cons_ws (by decide), jsTrim_append_ws (by decide)]


/-!
## Claims C1, C2, C7, C10: the wrap/unwrap codec
-/

/-- C1: the claimed round-trip `unwrap (wrap id name b z) = normalize b`
(normalize = per-line trailing-whitespace trim) is false: the interior
four-space indentation added by `wrapScriptContent` is kept by
`prepareScriptContent`, so already a two-line body comes back with its
second line indented. -/
theorem C1_counterexample :
    prepareScriptContent (wrapScriptContent (str "i") (str "n")
        (str "a\nb") (str "t"))
      ≠ normalizeTrailLines (str "a\nb") := by decide

/-- C1 (amended): for every body `b` free of `/\x2a\x2a` and of the legacy
marker, and tag values free of `\x2a/`, unwrapping the wrapped file yields
the trimmed four-space-indented body `jsTrim (indentBody b)` — the wrap /
unwrap round-trip reindents rather than restoring `b` verbatim. -/
theorem C1_roundtrip_amended {id name b z : Str}
    (hid : ¬ Occ (str "*/") id) (hname : ¬ Occ (str "*/") name)
    (hz : ¬ Occ (str "*/") z)
    (hb1 : ¬ Occ (str "/**") b) (hb2 : ¬ Occ (str "flows.json ") b) :
    prepareScriptContent (wrapScriptContent id name b z)
      = jsTrim (indentBody b) :=
  prepare_wrap_eq hid hname hz hb1 hb2

theorem C1_roundtrip_amended_witness :
    prepareScriptContent (wrapScriptContent (str "i") (str "n")
        (str "a\nb") (str "t"))
      = jsTrim (indentBody (str "a\nb")) :=
  C1_roundtrip_amended (noOcc_of_hasSubB (by decide))
    (noOcc_of_hasSubB (by decide)) (noOcc_of_hasSubB (by decide))
    (noOcc_of_hasSubB (by decide)) (noOcc_of_hasSubB (by decide))

set_option maxRecDepth 8192 in
/-- C2: the claimed metadata round-trip fails for bodies that themselves
contain a doc comment: the body's `/\x2a\x2a ... \x2a/` becomes the first doc
comment of the wrapped file, the structured decode reads it instead of
the appended tags block, finds no tags, and the legacy fallback fails, so
`getMetadata` returns `none` despite non-empty `id` and `z`. -/
theorem C2_counterexample :
    getMetadata (wrapScriptContent (str "a") (str "n")
        (str "/** x */\nreturn 1;") (str "t")) = none := rfl

/-- C2 (amended): for every non-empty newline-free trim-fixed `id` and `z`
(free of `\x2a/` and not containing `@nr-id`), every such `name`, and
every body free of `/\x2a\x2a`, decoding the wrapped file yields metadata
whose id is `id` and whose z is `z`. -/
theorem C2_metadata_roundtrip_amended {id name b z : Str}
    (hid1 : id ≠ []) (hid2 : ∀ c ∈ id, dotChar c = true) (hid3 : jsTrim id = id)
    (hid4 : ¬ Occ (str "*/") id)
    (hname2 : ∀ c ∈ name, dotChar c = true) (hname4 : ¬ Occ (str "*/") name)
    (hnameid : ¬ Occ (str "@nr-id") name)
    (hz1 : z ≠ []) (hz2 : ∀ c ∈ z, dotChar c = true) (hz3 : jsTrim z = z)
    (hz4 : ¬ Occ (str "*/") z) (hzid : ¬ Occ (str "@nr-id") z)
    (hb1 : ¬ Occ (str "/**") b) :
    ∃ nm, getMetadata (wrapScriptContent id name b z)
      = some ⟨some (.jstr id), nm, .jstr z⟩ := by
  rw [wrap_eq]
  exact getMetadata_structured (noOcc_jsdoc_head hb1) hid1 hid2 hid3 hid4
    hname2 hname4 hnameid hz1 hz2 hz3 hz4 hzid

theorem C2_metadata_roundtrip_amended_witness :
    ∃ nm, getMetadata (wrapScriptContent (str "a") (str "n")
        (str "x = 1;") (str "t"))
      = some ⟨some (.jstr (str "a")), nm, .jstr (str "t")⟩ :=
  C2_metadata_roundtrip_amended (by decide) (by decide) (by decide)
    (noOcc_of_hasSubB (by decide)) (by decide) (noOcc_of_hasSubB (by decide))
    (noOcc_of_hasSubB (by decide)) (by decide) (by decide) (by decide)
    (noOcc_of_hasSubB (by decide)) (noOcc_of_hasSubB (by decide))
    (noOcc_of_hasSubB (by decide))

/-- C7: a body containing an embedded `\x7d;` is preserved by unwrap: the
footer strip cuts at the last occurrence, so the whole body (with the
embedded token) comes back as the trimmed indented body, and the token is
still present in the result. -/
theorem C7_rightmost_brace {id name z u v : Str}
    (hid : ¬ Occ (str "*/") id) (hname : ¬ Occ (str "*/") name)
    (hz : ¬ Occ (str "*/") z)
    (hb1 : ¬ Occ (str "/**") (u ++ str "\x7d;" ++ v))
    (hb2 : ¬ Occ (str "flows.json ") (u ++ str "\x7d;" ++ v)) :
    prepareScriptContent (wrapScriptContent id name (u ++ str "\x7d;" ++ v) z)
      = jsTrim (indentBody (u ++ str "\x7d;" ++ v)) ∧
    Occ (str "\x7d;") (prepareScriptContent
      (wrapScriptContent id name (u ++ str "\x7d;" ++ v) z)) := by
  have he := prepare_wrap_eq hid hname hz hb1 hb2
  refine ⟨he, ?_⟩
  rw [he]
  have hob : Occ (str "\x7d;") (u ++ str "\x7d;" ++ v) := by
    rw [List.append_assoc]
    exact occ_suffix_mono (List.suffix_append u _)
      (occ_of_pfx (List.prefix_append _ v))
  exact occ_jsTrim rfl (by decide) rfl (by decide)
    (occ_indentBody (by decide) (by decide) hob)

theorem C7_rightmost_brace_witness :
    prepareScriptContent (wrapScriptContent (str "i") (str "n")
        (str "a" ++ str "\x7d;" ++ str "\nb") (str "t"))
      = jsTrim (indentBody (str "a" ++ str "\x7d;" ++ str "\nb")) ∧
    Occ (str "\x7d;") (prepareScriptContent
      (wrapScriptContent (str "i") (str "n")
        (str "a" ++ str "\x7d;" ++ str "\nb") (str "t"))) :=
  C7_rightmost_brace (noOcc_of_hasSubB (by decide))
    (noOcc_of_hasSubB (by decide)) (noOcc_of_hasSubB (by decide))
    (noOcc_of_hasSubB (by decide)) (noOcc_of_hasSubB (by decide))

/-- C10: the structured decode inspects only the first doc comment: when
that comment carries no `@nr-id` tag, `getMetadata` equals the legacy
fallback on the whole content, whatever later doc comments (with tags or
not) the suffix `Y` contains. -/
theorem C10_first_doc_comment {X C Y : Str} (hX : ¬ Occ (str "/**") X)
    (hC : ¬ Occ (str "*/") C) (hCid : ¬ Occ (str "@nr-id") C) :
    getMetadata (X ++ str "/**" ++ C ++ str "*/" ++ Y)
      = getMetadataLegacy (X ++ str "/**" ++ C ++ str "*/" ++ Y) :=
  getMetadata_first_comment hX hC hCid

theorem C10_first_doc_comment_witness :
    getMetadata (str "x = 1;\n" ++ str "/**" ++ str " banner " ++ str "*/"
        ++ str "\n/**\n * @nr-id a\n * @nr-z b\n */\n")
      = getMetadataLegacy (str "x = 1;\n" ++ str "/**" ++ str " banner " ++ str "*/"
        ++ str "\n/**\n * @nr-id a\n * @nr-z b\n */\n") :=
  C10_first_doc_comment (noOcc_of_hasSubB (by decide))
    (noOcc_of_hasSubB (by decide)) (noOcc_of_hasSubB (by decide))


/-!
## Claims C3, C4, C9: walks, precedence, missing-id handling
-/

set_option maxRecDepth 16384 in
/-- C3: the sync walk (`scanScripts` of `src/unnamed/part_001`) applies
no `.spec.` / `.test.` filename exclusion, contradicting the documented
blacklist: a `my-func.spec.js` file with valid structured metadata is
collected under its id, and its entry makes `run` rewrite a matching
document node. -/
theorem C3_spec_file_not_skipped :
    ((scanScripts (str "src")
        [FSEntry.file (str "my-func.spec.js")
          (wrapScriptContent (str "id1") (str "f") (str "return 1;")
            (str "t1"))]).map Prod.fst = [str "id1"]) ∧
    syncWrites
      (scanScripts (str "src")
        [FSEntry.file (str "my-func.spec.js")
          (wrapScriptContent (str "id1") (str "f") (str "return 1;")
            (str "t1"))])
      [⟨str "id1", str "function", str "f", [], [], .jstr (str "t1")⟩]
      = true :=
  ⟨rfl, rfl⟩

set_option maxRecDepth 16384 in
/-- C4: a file whose first doc comment is a plain banner, with the
structured tags block further down and a legacy block as well, decodes to
the LEGACY values, refuting the claimed structured-over-legacy precedence
in general. -/
theorem C4_counterexample :
    (getMetadata (str "/** banner */\nmodule.exports = function (msg) \x7b\n    return msg;\n\x7d;\n/**\n * @nr-id a\n * @nr-z b\n */\n/* flows.json attributes\n    \"id\": \"L\",\n    \"z\": \"Z\"\n*/\n")).map
        (fun m => (m.id, m.z))
      = some (some (JVal.jstr (str "L")), JVal.jstr (str "Z")) := rfl

/-- C4 (amended): the structured block is authoritative only when it is
the file's FIRST doc comment: when nothing before it matches `/\x2a\x2a`,
`getMetadata` returns the structured id, name and z even though a legacy
block is also present (in the suffix `B`). -/
theorem C4_precedence_amended {A id name z B : Str}
    (hleg : (legacyFind B).isSome = true)
    (hA : ¬ Occ (str "/**") A)
    (hid1 : id ≠ []) (hid2 : ∀ c ∈ id, dotChar c = true) (hid3 : jsTrim id = id)
    (hid4 : ¬ Occ (str "*/") id)
    (hname1 : name ≠ []) (hname2 : ∀ c ∈ name, dotChar c = true)
    (hname3 : jsTrim name = name) (hname4 : ¬ Occ (str "*/") name)
    (hnameid : ¬ Occ (str "@nr-id") name)
    (hz1 : z ≠ []) (hz2 : ∀ c ∈ z, dotChar c = true) (hz3 : jsTrim z = z)
    (hz4 : ¬ Occ (str "*/") z) (hzid : ¬ Occ (str "@nr-id") z)
    (hznm : ¬ Occ (str "@nr-name") z) :
    getMetadata (A ++ str "/**" ++ tagsBlock id name z ++ str "*/" ++ B)
      = some ⟨some (.jstr id), some (.jstr name), .jstr z⟩ :=
  getMetadata_structured_full hA hid1 hid2 hid3 hid4 hname1 hname2 hname3
    hname4 hnameid hz1 hz2 hz3 hz4 hzid hznm

theorem C4_precedence_amended_witness :
    getMetadata (str "" ++ str "/**" ++ tagsBlock (str "a") (str "n") (str "t")
        ++ str "*/" ++ str "\n/* flows.json attributes\n    \"id\": \"L\"\n*/\n")
      = some ⟨some (.jstr (str "a")), some (.jstr (str "n")),
              .jstr (str "t")⟩ :=
  C4_precedence_amended (by decide) (noOcc_of_hasSubB (by decide))
    (by decide) (by decide) (by decide) (noOcc_of_hasSubB (by decide))
    (by decide) (by decide) (by decide) (noOcc_of_hasSubB (by decide))
    (noOcc_of_hasSubB (by decide)) (by decide) (by decide) (by decide)
    (noOcc_of_hasSubB (by decide)) (noOcc_of_hasSubB (by decide))
    (noOcc_of_hasSubB (by decide))

set_option maxRecDepth 16384 in
/-- C9: `migrate.ts` does NOT re-check the decoded id: on a legacy block
without an `"id"` key it interpolates the absent id into the rewritten
file as the string `undefined`, refuting "every caller re-checks the
id". -/
theorem C9_counterexample :
    (migrateFileContent (str "module.exports = function (msg) \x7b\n    return msg;\n\x7d;\n\n/* flows.json attributes\n    \"tabId\": \"t1\"\n*/\n")).map
        (fun out => hasSubB out (str "@nr-id undefined"))
      = some true := rfl

set_option maxRecDepth 16384 in
/-- C9 (amended): `getMetadata` can indeed return a record whose id is
absent (legacy JSON without an `"id"` key); the sync walk re-checks the
id and skips such a file, but `migrate.ts` uses `meta.id` unchecked and
writes the literal tag `@nr-id undefined`. -/
theorem C9_id_guard_amended :
    (∃ m, getMetadata (str "/* flows.json attributes\n    \"name\": \"x\"\n*/\n")
        = some m ∧ m.id = none) ∧
    scanScripts (str "src")
      [FSEntry.file (str "a.js")
        (str "/* flows.json attributes\n    \"name\": \"x\"\n*/\n")] = [] ∧
    (migrateFileContent (str "module.exports = function (msg) \x7b\n    return msg;\n\x7d;\n\n/* flows.json attributes\n    \"tabId\": \"t1\"\n*/\n")).map
        (fun out => hasSubB out (str "@nr-id undefined"))
      = some true :=
  ⟨⟨⟨none, some (.jstr (str "x")), .jstr []⟩, rfl, rfl⟩, rfl, rfl⟩


/-!
## Claim C6: the slug and the target path
-/

theorem collapseSpecAux_true (rest : Str) :
    collapseSpecAux true rest
      = collapseSpecAux false (rest.dropWhile (fun d => !isSlugChar d)) := by
  induction rest with
  | nil => rfl
  | cons d rest ih =>
    rw [List.dropWhile_cons]
    by_cases hd : isSlugChar d = true
    · rw [if_neg (by rw [hd]; simp)]
      show collapseSpecAux true (d :: rest) = collapseSpecAux false (d :: rest)
      simp [collapseSpecAux, hd]
    · have hd' : isSlugChar d = false := by
        cases h : isSlugChar d
        · rfl
        · exact absurd h hd
      rw [if_pos (by rw [hd']; simp)]
      show collapseSpecAux true (d :: rest) = _
      simp only [collapseSpecAux, hd', Bool.false_eq_true, if_false, if_true]
      exact ih

theorem collapseNonAlnum_eq_spec (s : Str) :
    collapseNonAlnum s = collapseSpecAux false s := by
  have H : ∀ n (s : Str), s.length ≤ n →
      collapseNonAlnum s = collapseSpecAux false s := by
    intro n
    induction n with
    | zero =>
      intro s hs
      rw [List.eq_nil_of_length_eq_zero (Nat.le_zero.mp hs),
        collapseNonAlnum.eq_def]
      rfl
    | succ n ih =>
      intro s hs
      cases s with
      | nil =>
        rw [collapseNonAlnum.eq_def]
        rfl
      | cons c rest =>
        rw [collapseNonAlnum.eq_def]
        by_cases hc : isSlugChar c = true
        · simp only [hc, if_true]
          rw [ih rest (by simpa using Nat.le_of_succ_le_succ hs)]
          simp [collapseSpecAux, hc]
        · have hc' : isSlugChar c = false := by
            cases h : isSlugChar c
            · rfl
            · exact absurd h hc
          simp only [hc', Bool.false_eq_true, if_false]
          rw [ih (rest.dropWhile (fun d => !isSlugChar d))
              (le_trans (List.dropWhile_suffix _).length_le
                (by simpa using Nat.le_of_succ_le_succ hs))]
          rw [← collapseSpecAux_true]
          simp [collapseSpecAux, hc']
  exact H s.length s le_rfl

/-- The source's `sanitize` computes exactly the slug the specification
describes. -/
theorem sanitize_eq_slugSpec (s : Str) : sanitize s = slugSpec s := by
  unfold sanitize slugSpec
  rw [collapseNonAlnum_eq_spec]

/-- The target path in terms of the structural slug. -/
theorem extractTargetPath_slug {srcDir nodeId : Str} {flows : List Node}
    {node : Node} (hfind : flows.find? (fun n => n.id = nodeId) = some node) :
    extractTargetPath srcDir flows nodeId
      = some (pathJoin (pathJoin srcDir
          (slugSpec (match mapGetJ (tabMapExtract flows) node.z with
                     | some s => jsOrStr s (str "global")
                     | none => str "global")))
          (slugSpec (jsOrStr node.name nodeId) ++ str ".js")) := by
  unfold extractTargetPath
  rw [hfind]
  simp only [sanitize_eq_slugSpec]

/-- C6: a node whose display name `!!!` is non-empty but slugs to the
empty string gets target filename `.js` — the raw-id fallback promised by
the spec does not happen, because the code falls back on the NAME being
empty (`node.name || nodeId`), not on the slug being empty. -/
theorem C6_counterexample :
    extractTargetPath (str "src")
      [⟨str "node1", str "function", str "!!!", [], str "return;",
        .jstr (str "t9")⟩] (str "node1") = some (str "src/global/.js") ∧
    str "src/global/.js" ≠ str "src/global/node1.js" :=
  ⟨(@extractTargetPath_slug (str "src") (str "node1")
      [⟨str "node1", str "function", str "!!!", [], str "return;",
        .jstr (str "t9")⟩]
      ⟨str "node1", str "function", str "!!!", [], str "return;",
        .jstr (str "t9")⟩ rfl).trans (by decide), by decide⟩

/-- C6 (amended): the slug procedure is the spec's (lowercase, collapse
non-alphanumeric runs to one `-`, trim separators), and the target path
is `srcDir/<tab-slug>/<slug(name || id)>.js`: the `||` fallback to the
raw id applies when the display name is empty, not when its slug is. -/
theorem C6_target_path_amended {srcDir nodeId : Str} {flows : List Node}
    {node : Node} (hfind : flows.find? (fun n => n.id = nodeId) = some node) :
    (∀ s, sanitize s = slugSpec s) ∧
    extractTargetPath srcDir flows nodeId
      = some (pathJoin (pathJoin srcDir
          (slugSpec (match mapGetJ (tabMapExtract flows) node.z with
                     | some s => jsOrStr s (str "global")
                     | none => str "global")))
          (slugSpec (jsOrStr node.name nodeId) ++ str ".js")) :=
  ⟨fun s => sanitize_eq_slugSpec s, extractTargetPath_slug hfind⟩

theorem C6_target_path_amended_witness :
    (∀ s, sanitize s = slugSpec s) ∧
    extractTargetPath (str "src")
      [⟨str "node1", str "function", str "!!!", [], str "return;",
        .jstr (str "t9")⟩] (str "node1") = some (str "src/global/.js") :=
  @C6_target_path_amended (str "src") (str "node1")
    [⟨str "node1", str "function", str "!!!", [], str "return;",
      .jstr (str "t9")⟩]
    ⟨str "node1", str "function", str "!!!", [], str "return;",
      .jstr (str "t9")⟩ rfl


/-!
## Claim C5: idempotence of the sync loop
-/

theorem findLastIdx_cons (n : Node) (rest : List Node) (i : Str) :
    findLastIdx (n :: rest) i =
      match findLastIdx rest i with
      | some k => some (k + 1)
      | none => if n.id = i then some 0 else none := rfl

theorem findLastIdx_sound {l : List Node} {i : Str} {ix : Nat}
    (h : findLastIdx l i = some ix) :
    ∃ node, l.get? ix = some node ∧ node.id = i := by
  induction l generalizing ix with
  | nil => cases h
  | cons n rest ih =>
    rw [findLastIdx_cons] at h
    cases hr : findLastIdx rest i with
    | some k =>
      rw [hr] at h
      injection h with h'
      obtain ⟨node, hg, hid⟩ := ih hr
      refine ⟨node, ?_, hid⟩
      rw [← h']
      exact hg
    | none =>
      rw [hr] at h
      by_cases hid : n.id = i
      · rw [if_pos hid] at h
        injection h with h'
        refine ⟨n, ?_, hid⟩
        rw [← h']
        rfl
      · rw [if_neg hid] at h
        cases h

theorem findLastIdx_congr {l₁ l₂ : List Node}
    (h : l₁.map Node.id = l₂.map Node.id) (i : Str) :
    findLastIdx l₁ i = findLastIdx l₂ i := by
  induction l₁ generalizing l₂ with
  | nil =>
    cases l₂ with
    | nil => rfl
    | cons b r₂ => cases h
  | cons a r ih =>
    cases l₂ with
    | nil => cases h
    | cons b r₂ =>
      simp only [List.map_cons, List.cons.injEq] at h
      rw [findLastIdx_cons, findLastIdx_cons, ih h.2, h.1]

theorem get?_set_self {l : List Node} {ix : Nat} {a node : Node}
    (h : l.get? ix = some node) : (l.set ix a).get? ix = some a := by
  induction l generalizing ix with
  | nil => cases h
  | cons b rest ih =>
    cases ix with
    | zero => rfl
    | succ n => exact ih h

theorem get?_set_ne {l : List Node} {ix k : Nat} {a : Node} (hne : k ≠ ix) :
    (l.set ix a).get? k = l.get? k := by
  induction l generalizing ix k with
  | nil => rfl
  | cons b rest ih =>
    cases ix with
    | zero =>
      cases k with
      | zero => exact absurd rfl hne
      | succ m => rfl
    | succ n =>
      cases k with
      | zero => rfl
      | succ m => exact ih fun hh => hne (by rw [hh])

theorem set_map_id {l : List Node} {ix : Nat} {node a : Node}
    (hget : l.get? ix = some node) (hid : a.id = node.id) :
    (l.set ix a).map Node.id = l.map Node.id := by
  induction l generalizing ix with
  | nil => cases hget
  | cons b rest ih =>
    cases ix with
    | zero =>
      injection hget with h'
      subst h'
      simp [hid]
    | succ n =>
      simp only [List.set_cons_succ, List.map_cons]
      rw [ih hget]

theorem ite_node_id {c : Bool} {x y : Node} {i : Str} (hx : x.id = i)
    (hy : y.id = i) : (if c = true then x else y).id = i := by
  cases c
  · simpa
  · simpa

theorem bnot_eq_false {b : Bool} (h : (!b) = false) : b = true := by
  cases b
  · exact absurd h (by decide)
  · rfl

/-- `syncStep` leaves a ready document alone. -/
theorem syncStep_of_good {acc : List Node × Nat} {ent : Str × UpdRec}
    (hg : Good acc.1 ent) : syncStep acc ent = acc := by
  cases hfi : findLastIdx acc.1 ent.1 with
  | none =>
    unfold syncStep
    simp only [hfi]
  | some ix =>
    cases hget : acc.1.get? ix with
    | none =>
      unfold syncStep
      simp only [hfi, hget]
    | some node =>
      obtain ⟨hfunc, hzimp⟩ := hg ix node hfi hget
      unfold syncStep
      simp only [hfi, hget]
      have hfc : (!(node.func = prepareScriptContent ent.2.content : Bool))
          = false := by simp [hfunc]
      rw [hfc]
      simp only [Bool.false_eq_true, if_false, Bool.false_or]
      cases htr : ent.2.z.truthy with
      | false => simp
      | true =>
        rw [hzimp htr]
        simp

theorem ite_node_func {c : Bool} {x y : Node} {f : Str} (hx : x.func = f)
    (hy : y.func = f) : (if c = true then x else y).func = f := by
  cases c
  · simpa
  · simpa

/-- Case analysis of `syncStep`: either it returns the document unchanged
(and the entry was already satisfied), or it sets one node to a record
with the same id, the recomputed body, and (when truthy) the decoded
`z`. -/
theorem syncStep_master {acc : List Node × Nat} {ent : Str × UpdRec}
    (hz : ∃ s, ent.2.z = JVal.jstr s) :
    (syncStep acc ent = acc ∧ Good acc.1 ent) ∨
    (∃ ix node node2, findLastIdx acc.1 ent.1 = some ix ∧
      acc.1.get? ix = some node ∧ node2.id = node.id ∧
      node2.func = prepareScriptContent ent.2.content ∧
      (ent.2.z.truthy = true → jstrictEq node2.z ent.2.z = true) ∧
      syncStep acc ent = (acc.1.set ix node2, acc.2 + 1)) := by
  cases hfi : findLastIdx acc.1 ent.1 with
  | none =>
    left
    constructor
    · unfold syncStep
      simp only [hfi]
    · intro ix node h1 h2
      rw [hfi] at h1
      cases h1
  | some ix =>
    cases hget : acc.1.get? ix with
    | none =>
      left
      constructor
      · unfold syncStep
        simp only [hfi, hget]
      · intro ix' node' h1 h2
        rw [hfi] at h1
        injection h1 with h1
        rw [← h1, hget] at h2
        cases h2
    | some node =>
      have hstep : syncStep acc ent =
          (if ((!(node.func = prepareScriptContent ent.2.content : Bool))
              || (ent.2.z.truthy
                  && !(jstrictEq (if (!(node.func = prepareScriptContent
                        ent.2.content : Bool)) = true
                      then { node with func := prepareScriptContent ent.2.content }
                      else node).z ent.2.z))) = true
           then (acc.1.set ix
              (if (ent.2.z.truthy
                  && !(jstrictEq (if (!(node.func = prepareScriptContent
                        ent.2.content : Bool)) = true
                      then { node with func := prepareScriptContent ent.2.content }
                      else node).z ent.2.z)) = true
               then { (if (!(node.func = prepareScriptContent
                        ent.2.content : Bool)) = true
                      then { node with func := prepareScriptContent ent.2.content }
                      else node) with z := ent.2.z }
               else (if (!(node.func = prepareScriptContent
                        ent.2.content : Bool)) = true
                     then { node with func := prepareScriptContent ent.2.content }
                     else node)), acc.2 + 1)
           else acc) := by
        unfold syncStep
        simp only [hfi, hget]
      revert hstep
      generalize hN1 : (if (!(node.func = prepareScriptContent
            ent.2.content : Bool)) = true
          then { node with func := prepareScriptContent ent.2.content }
          else node) = node1
      intro hstep
      have hid1 : node1.id = node.id := by
        rw [← hN1]
        apply ite_node_id <;> rfl
      have hfunc1eq : (!(node.func = prepareScriptContent
          ent.2.content : Bool)) = false →
          node.func = prepareScriptContent ent.2.content := fun h =>
        of_decide_eq_true (bnot_eq_false h)
      have hfunc1 : node1.func = prepareScriptContent ent.2.content := by
        rw [← hN1]
        cases hfc : (!(node.func = prepareScriptContent ent.2.content : Bool)) with
        | true =>
          rw [if_pos rfl]
        | false =>
          rw [if_neg (by simp)]
          exact hfunc1eq hfc
      revert hstep
      generalize hN2 : (if (ent.2.z.truthy
            && !(jstrictEq node1.z ent.2.z)) = true
          then { node1 with z := ent.2.z } else node1) = node2
      intro hstep
      have hid2 : node2.id = node1.id := by
        rw [← hN2]
        apply ite_node_id <;> rfl
      have hfunc2 : node2.func = node1.func := by
        rw [← hN2]
        apply ite_node_func <;> rfl
      have hz2 : ent.2.z.truthy = true → jstrictEq node2.z ent.2.z = true := by
        intro htr
        obtain ⟨s, hs⟩ := hz
        rw [← hN2]
        cases hzc : (ent.2.z.truthy && !(jstrictEq node1.z ent.2.z)) with
        | true =>
          rw [if_pos rfl]
          show jstrictEq ent.2.z ent.2.z = true
          rw [hs]
          simp [jstrictEq]
        | false =>
          rw [if_neg (by simp)]
          rw [Bool.and_eq_false_iff] at hzc
          rcases hzc with hzc | hzc
          · rw [htr] at hzc
            cases hzc
          · exact bnot_eq_false hzc
      cases hcond : ((!(node.func = prepareScriptContent ent.2.content : Bool))
          || (ent.2.z.truthy && !(jstrictEq node1.z ent.2.z))) with
      | false =>
        left
        rw [hcond] at hstep
        simp only [Bool.false_eq_true, if_false] at hstep
        refine ⟨hstep, ?_⟩
        rw [Bool.or_eq_false_iff] at hcond
        obtain ⟨hfc, hzc⟩ := hcond
        intro ix' node' h1 h2
        rw [hfi] at h1
        injection h1 with h1
        rw [← h1, hget] at h2
        injection h2 with h2
        subst h2
        refine ⟨hfunc1eq hfc, fun htr => ?_⟩
        rw [Bool.and_eq_false_iff] at hzc
        rcases hzc with hzc | hzc
        · rw [htr] at hzc
          cases hzc
        · have hn1 : node = node1 := by
            rw [← hN1, hfc]
            simp
          rw [hn1]
          exact bnot_eq_false hzc
      | true =>
        right
        rw [hcond] at hstep
        rw [if_pos rfl] at hstep
        exact ⟨ix, node, node2, rfl, hget, hid2.trans hid1,
          hfunc2.trans hfunc1, hz2, hstep⟩


/-- `syncStep` establishes its own entry's post-state. -/
theorem syncStep_good_self {acc : List Node × Nat} {ent : Str × UpdRec}
    (hz : ∃ s, ent.2.z = JVal.jstr s) :
    Good (syncStep acc ent).1 ent := by
  rcases @syncStep_master acc ent hz with ⟨hstep, hg⟩ |
    ⟨ix, node, node2, hfi, hget, hid, hfunc, hzp, hstep⟩
  · rw [hstep]
    exact hg
  · rw [hstep]
    intro ix' node' h1 h2
    have hmap := set_map_id hget hid
    rw [findLastIdx_congr hmap, hfi] at h1
    injection h1 with h1
    rw [← h1] at h2
    rw [get?_set_self hget] at h2
    injection h2 with h2
    subst h2
    exact ⟨hfunc, hzp⟩

/-- `syncStep` for a different id leaves an entry's post-state intact. -/
theorem syncStep_preserves_good {acc : List Node × Nat}
    {ent ent' : Str × UpdRec} (hne : ent'.1 ≠ ent.1)
    (hz' : ∃ s, ent'.2.z = JVal.jstr s) (hg : Good acc.1 ent) :
    Good (syncStep acc ent').1 ent := by
  rcases @syncStep_master acc ent' hz' with ⟨hstep, _⟩ |
    ⟨ix', node', node2', hfi', hget', hid', _, _, hstep⟩
  · rw [hstep]
    exact hg
  · rw [hstep]
    intro ix node h1 h2
    have hmap := set_map_id hget' hid'
    rw [findLastIdx_congr hmap] at h1
    have hne_ix : ix ≠ ix' := by
      intro hh
      obtain ⟨na, hga, hia⟩ := findLastIdx_sound h1
      obtain ⟨nb, hgb, hib⟩ := findLastIdx_sound hfi'
      rw [hh] at hga
      rw [hgb] at hga
      injection hga with heq
      exact hne (by rw [← hib, heq, hia])
    rw [get?_set_ne hne_ix] at h2
    exact hg ix node h1 h2

theorem foldl_preserves_good {rest : List (Str × UpdRec)} {ent : Str × UpdRec} :
    ∀ {acc : List Node × Nat},
      (∀ e ∈ rest, ∃ s, e.2.z = JVal.jstr s) →
      ent.1 ∉ rest.map Prod.fst → Good acc.1 ent →
      Good (rest.foldl syncStep acc).1 ent := by
  induction rest with
  | nil => intro acc _ _ hg; exact hg
  | cons u tail ih =>
    intro acc hz hnot hg
    rw [List.foldl_cons]
    simp only [List.map_cons, List.mem_cons, not_or] at hnot
    obtain ⟨hne, htail⟩ := hnot
    exact ih (fun e he => hz e (List.mem_cons_of_mem _ he)) htail
      (syncStep_preserves_good (fun hh => hne hh.symm)
        (hz u (List.mem_cons_self _ _)) hg)

theorem syncRun_all_good {updates : List (Str × UpdRec)} :
    ∀ {acc : List Node × Nat},
      (updates.map Prod.fst).Nodup →
      (∀ e ∈ updates, ∃ s, e.2.z = JVal.jstr s) →
      ∀ e ∈ updates, Good (updates.foldl syncStep acc).1 e := by
  induction updates with
  | nil => intro acc _ _ e he; cases he
  | cons u tail ih =>
    intro acc hnodup hz e he
    rw [List.foldl_cons]
    simp only [List.map_cons, List.nodup_cons] at hnodup
    rcases List.mem_cons.mp he with rfl | hmem
    · exact foldl_preserves_good
        (fun e2 he2 => hz e2 (List.mem_cons_of_mem _ he2)) hnodup.1
        (syncStep_good_self (hz e (List.mem_cons_self _ _)))
    · exact ih hnodup.2 (fun e2 he2 => hz e2 (List.mem_cons_of_mem _ he2)) e hmem

theorem syncRun_fixed {updates : List (Str × UpdRec)} :
    ∀ {flows : List Node} {c : Nat},
      (∀ e ∈ updates, Good flows e) →
      updates.foldl syncStep (flows, c) = (flows, c) := by
  induction updates with
  | nil => intro flows c _; rfl
  | cons u tail ih =>
    intro flows c hg
    rw [List.foldl_cons, syncStep_of_good (hg u (List.mem_cons_self _ _))]
    exact ih fun e he => hg e (List.mem_cons_of_mem _ he)

/-- C5: sync is idempotent: with the collected updates recomputed
unchanged (unique keys and string `z` values, as `scanScripts` yields),
running `run`'s loop a second time over the document produced by the
first leaves every node untouched, counts zero updates, and therefore
performs no write. -/
theorem C5_sync_idempotent {updates : List (Str × UpdRec)} {flows : List Node}
    (hnodup : (updates.map Prod.fst).Nodup)
    (hz : ∀ ent ∈ updates, ∃ s, ent.2.z = JVal.jstr s) :
    syncRun updates (syncRun updates flows).1 = ((syncRun updates flows).1, 0) ∧
    syncWrites updates (syncRun updates flows).1 = false := by
  have hall : ∀ e ∈ updates, Good (syncRun updates flows).1 e :=
    syncRun_all_good hnodup hz
  have hfix : syncRun updates (syncRun updates flows).1
      = ((syncRun updates flows).1, 0) := syncRun_fixed hall
  refine ⟨hfix, ?_⟩
  unfold syncWrites
  rw [hfix]
  rfl

theorem C5_sync_idempotent_witness :
    (syncRun [(str "a", (⟨str "f", none, JVal.jstr (str "t"), str "x"⟩ : UpdRec))]
        (syncRun [(str "a", (⟨str "f", none, JVal.jstr (str "t"), str "x"⟩ : UpdRec))]
          [⟨str "a", str "function", [], [], [], JVal.jstr []⟩]).1
      = ((syncRun [(str "a", (⟨str "f", none, JVal.jstr (str "t"), str "x"⟩ : UpdRec))]
          [⟨str "a", str "function", [], [], [], JVal.jstr []⟩]).1, 0)) ∧
    syncWrites [(str "a", (⟨str "f", none, JVal.jstr (str "t"), str "x"⟩ : UpdRec))]
      (syncRun [(str "a", (⟨str "f", none, JVal.jstr (str "t"), str "x"⟩ : UpdRec))]
        [⟨str "a", str "function", [], [], [], JVal.jstr []⟩]).1 = false :=
  C5_sync_idempotent (by decide)
    (fun ent h => by
      rcases List.mem_singleton.mp h with rfl
      exact ⟨str "t", rfl⟩)


/-!
## Claim C8: the scan report
-/

theorem insertDesc_perm (a : Candidate) (m : List Candidate) :
    (insertDesc a m).Perm (a :: m) := by
  induction m with
  | nil => exact List.Perm.refl _
  | cons b rest ih =>
    simp only [insertDesc]
    by_cases h : a.complexity < b.complexity
    · rw [if_pos h]
      exact (ih.cons b).trans (List.Perm.swap a b rest)
    · rw [if_neg h]

theorem insertDesc_pairwise {a : Candidate} {m : List Candidate}
    (hm : m.Pairwise (fun x y => y.complexity ≤ x.complexity)) :
    (insertDesc a m).Pairwise (fun x y => y.complexity ≤ x.complexity) := by
  induction m with
  | nil => simp [insertDesc]
  | cons b rest ih =>
    simp only [insertDesc]
    rcases List.pairwise_cons.mp hm with ⟨hb, hrest⟩
    by_cases h : a.complexity < b.complexity
    · rw [if_pos h]
      refine List.pairwise_cons.mpr ⟨?_, ih hrest⟩
      intro c hc
      rcases List.mem_cons.mp ((insertDesc_perm a rest).mem_iff.mp hc) with
        rfl | hcm
      · exact Nat.le_of_lt h
      · exact hb c hcm
    · rw [if_neg h]
      refine List.pairwise_cons.mpr ⟨?_, List.pairwise_cons.mpr ⟨hb, hrest⟩⟩
      intro c hc
      rcases List.mem_cons.mp hc with rfl | hcm
      · exact Nat.le_of_not_lt h
      · exact le_trans (hb c hcm) (Nat.le_of_not_lt h)

theorem sortDesc_perm (l : List Candidate) : (sortDesc l).Perm l := by
  induction l with
  | nil => exact List.Perm.refl _
  | cons a rest ih =>
    simp only [sortDesc]
    exact (insertDesc_perm a (sortDesc rest)).trans (ih.cons a)

theorem sortDesc_pairwise (l : List Candidate) :
    (sortDesc l).Pairwise (fun x y => y.complexity ≤ x.complexity) := by
  induction l with
  | nil => exact List.Pairwise.nil
  | cons a rest ih =>
    simp only [sortDesc]
    exact insertDesc_pairwise ih

/-- Stability of the insertion: the elements at any complexity level keep
their relative order, the inserted element coming first at its own
level. -/
theorem insertDesc_filter (a : Candidate) (m : List Candidate) (k : Nat) :
    (insertDesc a m).filter (fun c => c.complexity = k)
      = if a.complexity = k
        then a :: m.filter (fun c => c.complexity = k)
        else m.filter (fun c => c.complexity = k) := by
  induction m with
  | nil =>
    simp only [insertDesc]
    by_cases hk : a.complexity = k
    · simp [List.filter_cons, hk]
    · simp [List.filter_cons, hk]
  | cons b rest ih =>
    simp only [insertDesc]
    by_cases h : a.complexity < b.complexity
    · rw [if_pos h, List.filter_cons, ih]
      by_cases hk : a.complexity = k
      · have hbk : ¬ (b.complexity = k) := by omega
        simp [List.filter_cons, hk, hbk]
      · simp [List.filter_cons, hk]
    · rw [if_neg h, List.filter_cons, List.filter_cons]
      by_cases hk : a.complexity = k
      · simp [hk]
      · simp [hk]

/-- Stability of the sort: per complexity level, encounter order is
kept. -/
theorem sortDesc_filter (l : List Candidate) (k : Nat) :
    (sortDesc l).filter (fun c => c.complexity = k)
      = l.filter (fun c => c.complexity = k) := by
  induction l with
  | nil => rfl
  | cons a rest ih =>
    simp only [sortDesc]
    rw [insertDesc_filter, List.filter_cons]
    by_cases hk : a.complexity = k
    · simp [hk, ih]
    · simp [hk, ih]

/-- What a collected candidate looks like. -/
theorem scanCandidates_mem {flows : List Node} {srcDir : Str}
    {tree : List FSEntry} {c : Candidate}
    (hc : c ∈ scanCandidates flows srcDir tree) :
    ∃ node ∈ flows, node.type = str "function" ∧ node.func.isEmpty = false ∧
      c.id = node.id ∧ c.complexity = 1 + countComplexTokens node.func ∧
      c.exported = mapHasStr (buildIdMap srcDir tree) node.id := by
  obtain ⟨node, hmem, heq⟩ := List.mem_filterMap.mp hc
  refine ⟨node, hmem, ?_⟩
  by_cases ht : node.type = str "function"
  · rw [if_pos ht] at heq
    by_cases hf : node.func.isEmpty = true
    · rw [if_pos hf] at heq
      cases heq
    · rw [if_neg hf] at heq
      injection heq with heq
      subst heq
      have hfe : node.func.isEmpty = false := by
        cases hfe : node.func.isEmpty
        · rfl
        · exact absurd hfe hf
      exact ⟨ht, hfe, rfl, rfl, rfl⟩
  · rw [if_neg ht] at heq
    cases heq

/-- C8: the scan report has at most 20 rows, is sorted descending by
complexity, ties keep encounter order, every row comes from a
`"function"`-typed node with a non-empty body with complexity
`1 + token count` and the exported flag looked up in the file index; and
three function nodes with branch-token counts 0, 2, 5 are listed in order
5, 2, 0 with complexities 6, 3, 1. -/
theorem C8_scan_report {flows : List Node} {srcDir : Str} {tree : List FSEntry} :
    (scanReport flows srcDir tree).length ≤ 20 ∧
    (scanReport flows srcDir tree).Pairwise
      (fun x y => y.complexity ≤ x.complexity) ∧
    (∀ k, (sortDesc (scanCandidates flows srcDir tree)).filter
          (fun c => c.complexity = k)
        = (scanCandidates flows srcDir tree).filter
          (fun c => c.complexity = k)) ∧
    (∀ c ∈ scanReport flows srcDir tree,
      ∃ node ∈ flows, node.type = str "function" ∧ node.func.isEmpty = false ∧
        c.id = node.id ∧ c.complexity = 1 + countComplexTokens node.func ∧
        c.exported = mapHasStr (buildIdMap srcDir tree) node.id) ∧
    ((scanReport
        [⟨str "n0", str "function", str "f0", [], str "return msg;",
          JVal.jstr []⟩,
         ⟨str "n2", str "function", str "f2", [], str "if (a && b) return 2;",
          JVal.jstr []⟩,
         ⟨str "n5", str "function", str "f5", [],
          str "if (a) \x7b \x7d else if (b && c || d) \x7b \x7d",
          JVal.jstr []⟩]
        (str "src") []).map (fun c => (c.id, c.complexity))
      = [(str "n5", 6), (str "n2", 3), (str "n0", 1)]) := by
  refine ⟨List.length_take_le _ _, ?_, fun k => sortDesc_filter _ k, ?_, ?_⟩
  · exact (sortDesc_pairwise _).sublist (List.take_sublist _ _)
  · intro c hc
    exact scanCandidates_mem
      ((sortDesc_perm _).mem_iff.mp (List.take_subset _ _ hc))
  · rfl

end NRSync
